import Mathlib

/-!
Verification of jjoin: key-path resolution, partitioning and the join engine

A shallow embedding of `main.go` (the key-path resolver `Key`, `Filter`,
`PartitionByKey`, `UnionKeys` and `PerformJoin`) together with theorems about it.

Modelling conventions.

* A decoded JSON document (`interface{}` as produced by `encoding/json`) is the
  inductive type `JSON`.  Go's `nil` interface value is `JSON.null`; the number
  payload (`float64`) is only ever compared for equality by the program and is
  carried as an exact rational.
* A Go string is a byte sequence (`GoString`). The key expression comes from the command line
  and need not be valid UTF-8: `KeyFromGoString` is `KeyFromString` on such a string, with
  the conversion `string([]rune(kp)[1:])` decoding and encoding UTF-8 as Go does. Field
  names and string values of decoded JSON are valid UTF-8 and are carried as `String`;
  `KeyFromString` is the same function on key expressions that are texts, where the
  conversion drops the first character and nothing else (`KeyFromGoString_utf8`).
* A Go `map[K]V` is an association list with pairwise distinct keys, read with
  `mapGet` and written with `mapSet`.  Indexing a Go map with a slice or a map as key
  panics; `PartitionByKeyChecked` has that panic, and `PartitionByKey` is the map it
  returns when no key is composite, which is always so for `Key.Value`.  The order in which `range` visits a map
  is not fixed by the language, so the loop over the key union in `PerformJoin`
  takes the visiting order as an argument; `IsRange m order` says that `order`
  is one of the orders in which `range m` may visit the keys of `m`.
-/

namespace Jjoin

/-- A decoded JSON document: `nil`, `bool`, `float64`, `string`,
`[]interface{}` and `map[string]interface{}`. -/
inductive JSON where
  | null : JSON
  | bool (b : Bool) : JSON
  | num (n : Rat) : JSON
  | str (s : String) : JSON
  | arr (xs : List JSON) : JSON
  | obj (fs : List (String × JSON)) : JSON

namespace JSON

mutual
/-- Equality of decoded documents is decidable. -/
def decEq : (a b : JSON) → Decidable (a = b)
  | .null, .null => isTrue rfl
  | .bool a, .bool b =>
    if h : a = b then isTrue (by rw [h]) else isFalse (by intro e; cases e; exact h rfl)
  | .num a, .num b =>
    if h : a = b then isTrue (by rw [h]) else isFalse (by intro e; cases e; exact h rfl)
  | .str a, .str b =>
    if h : a = b then isTrue (by rw [h]) else isFalse (by intro e; cases e; exact h rfl)
  | .arr a, .arr b =>
    match decEqList a b with
    | isTrue h => isTrue (by rw [h])
    | isFalse h => isFalse (by intro e; cases e; exact h rfl)
  | .obj a, .obj b =>
    match decEqFields a b with
    | isTrue h => isTrue (by rw [h])
    | isFalse h => isFalse (by intro e; cases e; exact h rfl)
  | .null, .bool _ | .null, .num _ | .null, .str _ | .null, .arr _ | .null, .obj _
  | .bool _, .null | .bool _, .num _ | .bool _, .str _ | .bool _, .arr _ | .bool _, .obj _
  | .num _, .null | .num _, .bool _ | .num _, .str _ | .num _, .arr _ | .num _, .obj _
  | .str _, .null | .str _, .bool _ | .str _, .num _ | .str _, .arr _ | .str _, .obj _
  | .arr _, .null | .arr _, .bool _ | .arr _, .num _ | .arr _, .str _ | .arr _, .obj _
  | .obj _, .null | .obj _, .bool _ | .obj _, .num _ | .obj _, .str _ | .obj _, .arr _ =>
    isFalse (by intro e; cases e)
/-- Equality of sequences of documents is decidable. -/
def decEqList : (a b : List JSON) → Decidable (a = b)
  | [], [] => isTrue rfl
  | [], _ :: _ => isFalse (by intro e; cases e)
  | _ :: _, [] => isFalse (by intro e; cases e)
  | x :: xs, y :: ys =>
    match decEq x y, decEqList xs ys with
    | isTrue h1, isTrue h2 => isTrue (by rw [h1, h2])
    | isFalse h, _ => isFalse (by intro e; cases e; exact h rfl)
    | _, isFalse h => isFalse (by intro e; cases e; exact h rfl)
/-- Equality of field lists is decidable. -/
def decEqFields : (a b : List (String × JSON)) → Decidable (a = b)
  | [], [] => isTrue rfl
  | [], _ :: _ => isFalse (by intro e; cases e)
  | _ :: _, [] => isFalse (by intro e; cases e)
  | (k, x) :: xs, (l, y) :: ys =>
    if hk : k = l then
      match decEq x y, decEqFields xs ys with
      | isTrue h1, isTrue h2 => isTrue (by rw [hk, h1, h2])
      | isFalse h, _ => isFalse (by intro e; cases e; exact h rfl)
      | _, isFalse h => isFalse (by intro e; cases e; exact h rfl)
    else isFalse (by intro e; cases e; exact hk rfl)
end

instance : DecidableEq JSON := decEq

/-- The shapes `terminalComponent` accepts: null, boolean, number, string. -/
def isScalar : JSON → Bool
  | .null => true
  | .bool _ => true
  | .num _ => true
  | .str _ => true
  | .arr _ => false
  | .obj _ => false

end JSON

/-! ## Go maps -/

/-- Go `m[k]` in its two-result form: `some v` when the key is present. -/
def mapGet {K V : Type} [DecidableEq K] : List (K × V) → K → Option V
  | [], _ => none
  | (k', v) :: m, k => if k' = k then some v else mapGet m k

/-- Go `m[k] = v`: overwrite the entry of `k`, or add one. -/
def mapSet {K V : Type} [DecidableEq K] : List (K × V) → K → V → List (K × V)
  | [], k, v => [(k, v)]
  | (k', v') :: m, k, v => if k' = k then (k, v) :: m else (k', v') :: mapSet m k v

/-- The keys of a map, in the order the entries were first written. -/
def mapKeys {K V : Type} (m : List (K × V)) : List K := m.map Prod.fst

/-- Holds when `order` is an order in which `for k := range m` may visit the keys of `m`:
every key exactly once, in any order. -/
def IsRange {K V : Type} (m : List (K × V)) (order : List K) : Prop :=
  List.Perm order (mapKeys m)

/-! ## Key paths (`main.go` 337-399) -/

/-- Go `type Key struct { Path []string }`. -/
structure Key where
  Path : List String
  deriving DecidableEq

/-- Go `nextDict`: one step of descent, defined only on a keyed mapping that has the field. -/
def nextDict (p : String) (d : JSON) : Bool × JSON :=
  match d with
  | .null => (false, .null)
  | .obj v =>
    match mapGet v p with
    | none => (false, .null)
    | some c => (true, c)
  | _ => (false, .null)

/-- Go `terminalComponent`: accept null and scalars, reject composites. -/
def terminalComponent (x : JSON) : Bool × JSON :=
  match x with
  | .null => (true, .null)
  | .bool b => (true, .bool b)
  | .num n => (true, .num n)
  | .str s => (true, .str s)
  | _ => (false, .null)

/-- The loop of `Key.Get`: `c` is the current value, the list is the rest of `k.Path`. -/
def getLoop : List String → JSON → Bool × JSON
  | [], c => terminalComponent c
  | p :: ps, c =>
    match nextDict p c with
    | (false, _) => (false, .null)
    | (true, n) => getLoop ps n

/-- Go `Key.Get`. -/
def Key.Get (k : Key) (d : JSON) : Bool × JSON := getLoop k.Path d

/-- Go `Key.Exists`. -/
def Key.Exists (k : Key) (d : JSON) : Bool := (k.Get d).1

/-- Go `Key.Value`. -/
def Key.Value (k : Key) (d : JSON) : JSON := (k.Get d).2

/-- Go `strings.HasPrefix`. -/
def HasPrefix (s pre : String) : Bool := pre.data.isPrefixOf s.data

/-- The pieces of a character list between occurrences of `sep`; `cur` holds the
characters of the piece being read, last read first. -/
def splitChars (sep : Char) : List Char → List Char → List String
  | [], cur => [String.mk cur.reverse]
  | c :: cs, cur =>
    if c = sep then String.mk cur.reverse :: splitChars sep cs []
    else splitChars sep cs (c :: cur)

/-- Go `strings.Split` for a one-character separator (the only use is `"."`). -/
def Split (s : String) (sep : Char) : List String := splitChars sep s.data []

/-- Go `KeyFromString` on a key expression that is a text (valid UTF-8), where
`string([]rune(kp)[1:])` drops the first character; the error result is never produced.
`KeyFromGoString` is the function on arbitrary byte strings. -/
def KeyFromString (kp : String) : Except String Key :=
  if kp = "." then .ok { Path := [] }
  else
    let kp := if HasPrefix kp "." then String.mk (kp.data.drop 1) else kp
    .ok { Path := Split kp '.' }

/-- Go `getKeyOpts` (lines 197-227); the three arguments are `c.String("left-key")`,
`c.String("right-key")` and `c.String("using")`, the empty string for an option that was
not given. -/
def getKeyOpts (leftKeyExpr rightKeyExpr bothKeyExpr : String) : Except String (Key × Key) :=
  if bothKeyExpr = "" ∧ leftKeyExpr = "" ∧ rightKeyExpr = "" then
    .error "keys required"
  else if bothKeyExpr ≠ "" then
    if leftKeyExpr ≠ "" ∨ rightKeyExpr ≠ "" then
      .error "using is mutually exclusive with left and right key"
    else
      match KeyFromString bothKeyExpr with
      | .error err => .error err
      | .ok k => .ok (k, k)
  else if leftKeyExpr = "" ∨ rightKeyExpr = "" then
    .error "both left key and right key are required"
  else
    match KeyFromString leftKeyExpr with
    | .error err => .error ("left key error: " ++ err)
    | .ok kl =>
      match KeyFromString rightKeyExpr with
      | .error err => .error ("left key error: " ++ err)
      | .ok kr => .ok (kl, kr)

/-! ## Partitioning and joining (`main.go` 245-334) -/

/-- Go `Filter`. -/
def Filter (key : JSON → Bool) (seq : List JSON) : List JSON :=
  seq.foldl (fun r x => if key x then r ++ [x] else r) []

/-- Go `PartitionByKey`: the map built by the loop. The run-time panic of `part[ks]` for
a key that is a slice or a map is in `PartitionByKeyChecked`, which returns this map
whenever every key is null or a scalar. -/
def PartitionByKey (key : JSON → JSON) (seq : List JSON) : List (JSON × List JSON) :=
  seq.foldl
    (fun part x =>
      let ks := key x
      let pk := match mapGet part ks with
        | some pk => pk
        | none => []
      mapSet part ks (pk ++ [x]))
    []

/-- Go `UnionKeys`. -/
def UnionKeys (left right : List (JSON × List JSON)) : List (JSON × Unit) :=
  let k := (mapKeys left).foldl (fun k kl => mapSet k kl ()) []
  (mapKeys right).foldl (fun k kr => mapSet k kr ()) k

/-- Go `type JoinedPair struct { Left, Right interface{} }`; the component of a
missing side is Go `nil`, that is `JSON.null`. -/
structure JoinedPair where
  Left : JSON
  Right : JSON
  deriving DecidableEq

/-- Go `type JoinParams struct`. -/
structure JoinParams where
  Left : List JSON
  Right : List JSON
  LeftKey : Key
  RightKey : Key

/-- The body of the loop over the key union in `PerformJoin` (lines 253-278):
`j` is the output so far, `k` the key being visited. -/
def joinStep (leftByKey rightByKey : List (JSON × List JSON))
    (inner leftOuter rightOuter : Bool) (j : List JoinedPair) (k : JSON) : List JoinedPair :=
  let left := match mapGet leftByKey k with
    | some left => left
    | none => []
  let right := match mapGet rightByKey k with
    | some right => right
    | none => []
  let j := if inner && decide (left.length > 0) && decide (right.length > 0) then
      left.foldl (fun j xl => right.foldl (fun j xr => j ++ [JoinedPair.mk xl xr]) j) j
    else j
  let j := if leftOuter && decide (left.length > 0) && decide (right.length = 0) then
      left.foldl (fun j x => j ++ [JoinedPair.mk x .null]) j
    else j
  let j := if rightOuter && decide (left.length = 0) && decide (right.length > 0) then
      right.foldl (fun j x => j ++ [JoinedPair.mk .null x]) j
    else j
  j

/-- The left partition built by `PerformJoin` (lines 246, 248). -/
def leftByKey (p : JoinParams) : List (JSON × List JSON) :=
  PartitionByKey p.LeftKey.Value (Filter p.LeftKey.Exists p.Left)

/-- The right partition built by `PerformJoin` (lines 247, 249): filtered with
`RightKey.Exists`, partitioned with `LeftKey.Value`. -/
def rightByKey (p : JoinParams) : List (JSON × List JSON) :=
  PartitionByKey p.LeftKey.Value (Filter p.RightKey.Exists p.Right)

/-- The map `keys` of `PerformJoin` (line 250). -/
def joinKeys (p : JoinParams) : List (JSON × Unit) :=
  UnionKeys (leftByKey p) (rightByKey p)

/-- The loop `for k := range(keys)` of `PerformJoin` (lines 251-280), visiting the keys
in the order `order`. -/
def joinLoop (order : List JSON) (leftByKey rightByKey : List (JSON × List JSON))
    (inner leftOuter rightOuter : Bool) : List JoinedPair :=
  order.foldl (joinStep leftByKey rightByKey inner leftOuter rightOuter) []

/-- Go `PerformJoin`, with `order` the order in which `range(keys)` visits `joinKeys p`. -/
def PerformJoin (order : List JSON) (p : JoinParams)
    (inner leftOuter rightOuter : Bool) : List JoinedPair :=
  joinLoop order (leftByKey p) (rightByKey p) inner leftOuter rightOuter

/-- Go `actionSubtract` (lines 146-153): the documents printed, one per pair of
`PerformJoin(params, false, true, false)`, each the pair's left component. -/
def actionSubtract (order : List JSON) (p : JoinParams) : List JSON :=
  (PerformJoin order p false true false).map (fun x => x.Left)

/-- The visiting order that follows first insertion into `keys`. -/
def firstSeen (p : JoinParams) : List JSON := mapKeys (joinKeys p)

/-! ## Reference definitions used to state the properties -/

/-- Remove one leading dot, if there is one. -/
def dropLeadingDot : List Char → List Char
  | '.' :: cs => cs
  | cs => cs

/-- The key-expression grammar in words: drop one leading dot if there is one,
then cut the rest at every dot. -/
def parseByRule (e : String) : List String :=
  ((dropLeadingDot e.data).splitOn '.').map String.mk

/-- The records stored under `k` in a partition, the empty list when `k` has no entry. -/
def bucketOf (m : List (JSON × List JSON)) (k : JSON) : List JSON :=
  match mapGet m k with
  | some b => b
  | none => []

/-- The pairs emitted for one key with left bucket `L` and right bucket `R`: the cross
product in left-major order when matched pairs are wanted and both are non-empty, the
left records next to the absent marker when left-only pairs are wanted and only `L` is
non-empty, the right records next to the absent marker when right-only pairs are wanted
and only `R` is non-empty, nothing otherwise. -/
def joinBlock (inner leftOuter rightOuter : Bool) (L R : List JSON) : List JoinedPair :=
  if inner = true ∧ L ≠ [] ∧ R ≠ [] then
    L.flatMap (fun l => R.map (fun r => JoinedPair.mk l r))
  else if leftOuter = true ∧ L ≠ [] ∧ R = [] then
    L.map (fun l => JoinedPair.mk l .null)
  else if rightOuter = true ∧ L = [] ∧ R ≠ [] then
    R.map (fun r => JoinedPair.mk .null r)
  else []

/-- The partition of the right records by the right key path. -/
def rightByOwnKey (p : JoinParams) : List (JSON × List JSON) :=
  PartitionByKey p.RightKey.Value (Filter p.RightKey.Exists p.Right)

/-- The parameters with the records whose own key path does not resolve removed. -/
def dropUnresolved (p : JoinParams) : JoinParams :=
  { p with
    Left := p.Left.filter p.LeftKey.Exists
    Right := p.Right.filter p.RightKey.Exists }

/-- Left records keyed by field `a`, right records keyed by field `b`, one record each
with the same key value 1. -/
def diffKeys : JoinParams :=
  { Left := [.obj [("a", .num 1)]]
    Right := [.obj [("b", .num 1)]]
    LeftKey := { Path := ["a"] }
    RightKey := { Path := ["b"] } }

/-- A left stream holding the document `null`, a right stream holding `{"a": 1}`, both
keyed by field `a`. -/
def nullLeft : JoinParams :=
  { Left := [.null]
    Right := [.obj [("a", .num 1)]]
    LeftKey := { Path := ["a"] }
    RightKey := { Path := ["a"] } }

/-- Two streams keyed by field `id`: ids 1, 2 on the left and 2, 3 on the right. -/
def twoStreams : JoinParams :=
  { Left := [.obj [("id", .num 1)], .obj [("id", .num 2)]]
    Right := [.obj [("id", .num 2)], .obj [("id", .num 3)]]
    LeftKey := { Path := ["id"] }
    RightKey := { Path := ["id"] } }

/-- The parameters `JoinParams{Left: A, Right: B, LeftKey: k, RightKey: k}` of a join
with one shared key path. -/
def sharedKey (k : Key) (A B : List JSON) : JoinParams :=
  { Left := A, Right := B, LeftKey := k, RightKey := k }

/-- The pair with its two components exchanged. -/
def JoinedPair.swap (jp : JoinedPair) : JoinedPair :=
  { Left := jp.Right, Right := jp.Left }

/-- The left records with a resolvable key for which no right record with a resolvable key
has the same key value, in the order of `A`. -/
def leftMinusRight (k : Key) (A B : List JSON) : List JSON :=
  A.filter (fun l => k.Exists l && !(B.any (fun r => k.Exists r && decide (k.Value r = k.Value l))))

/-- The keys that have a bucket in both partitions, in visiting order. -/
def commonKeys (order : List JSON) (p : JoinParams) : List JSON :=
  order.filter (fun k => decide (k ∈ mapKeys (leftByKey p)) && decide (k ∈ mapKeys (rightByKey p)))

/-- Identity key on both sides, the left stream holds the document `null`, the right
stream is empty. -/
def nullAlone : JoinParams :=
  { Left := [.null], Right := [], LeftKey := { Path := [] }, RightKey := { Path := [] } }

/-- Identity key on both sides, both streams hold the document `null`. -/
def nullBoth : JoinParams :=
  { Left := [.null], Right := [.null], LeftKey := { Path := [] }, RightKey := { Path := [] } }

/-- The record `{"id": i, "v": s}`. -/
def idRecord (i : Rat) (s : String) : JSON :=
  .obj [("id", .num i), ("v", .str s)]

/-- The scenario left = `[{"id":1,"v":"a"},{"id":2,"v":"b"}]`,
right = `[{"id":2,"v":"x"},{"id":3,"v":"y"}]`, both keys `id`. -/
def scenario : JoinParams :=
  { Left := [idRecord 1 "a", idRecord 2 "b"]
    Right := [idRecord 2 "x", idRecord 3 "y"]
    LeftKey := { Path := ["id"] }
    RightKey := { Path := ["id"] } }

/-- Two records under key 1 and one under key 2 on the left, two under key 1 and one under
key 3 on the right, one record without field `id` on each side; key `id` on both sides. -/
def multiStreams : JoinParams :=
  { Left := [idRecord 1 "a", idRecord 2 "b", .str "no key", idRecord 1 "c"]
    Right := [idRecord 1 "x", .arr [], idRecord 3 "y", idRecord 1 "z"]
    LeftKey := { Path := ["id"] }
    RightKey := { Path := ["id"] } }

/-! ## Go strings as byte sequences -/

/-- A Go string: a sequence of bytes, not necessarily valid UTF-8. -/
abbrev GoString := List (Fin 256)

/-- The byte with value `n` (taken modulo 256). -/
def byte (n : Nat) : Fin 256 := ⟨n % 256, Nat.mod_lt n (by decide)⟩

/-- Lowest second byte accepted after the lead byte `b0` (`acceptRanges` of `unicode/utf8`). -/
def acceptLo (b0 : Nat) : Nat :=
  if b0 = 0xE0 then 0xA0 else if b0 = 0xF0 then 0x90 else 0x80

/-- Highest second byte accepted after the lead byte `b0` (`acceptRanges` of `unicode/utf8`). -/
def acceptHi (b0 : Nat) : Nat :=
  if b0 = 0xED then 0x9F else if b0 = 0xF4 then 0x8F else 0xBF

/-- Holds when `b0` is the lead byte of a multi-byte sequence (`0xC2` to `0xF4`) and `b1` is
in its accepted range. -/
def acceptSecond (b0 b1 : Nat) : Bool :=
  decide (0xC2 ≤ b0 ∧ b0 ≤ 0xF4 ∧ acceptLo b0 ≤ b1 ∧ b1 ≤ acceptHi b0)

/-- Holds for a continuation byte, `0x80` to `0xBF`. -/
def isCont (b : Nat) : Bool := decide (0x80 ≤ b ∧ b ≤ 0xBF)

/-- Go `[]rune(s)`: decode UTF-8 from left to right; a byte that does not start a valid
sequence yields the rune `U+FFFD` and is skipped alone (`skip`). Masks and shifts of
`utf8.DecodeRuneInString` are written as remainders and products. -/
def decodeRunes : GoString → List Nat
  | [] => []
  | b0 :: t0 =>
    let skip := 0xFFFD :: decodeRunes t0
    if b0.val < 0x80 then b0.val :: decodeRunes t0
    else
      match t0 with
      | [] => skip
      | b1 :: t1 =>
        if acceptSecond b0.val b1.val = false then skip
        else if b0.val < 0xE0 then
          (b0.val % 32 * 64 + b1.val % 64) :: decodeRunes t1
        else
          match t1 with
          | [] => skip
          | b2 :: t2 =>
            if isCont b2.val = false then skip
            else if b0.val < 0xF0 then
              (b0.val % 16 * 4096 + b1.val % 64 * 64 + b2.val % 64) :: decodeRunes t2
            else
              match t2 with
              | [] => skip
              | b3 :: t3 =>
                if isCont b3.val = false then skip
                else
                  (b0.val % 8 * 262144 + b1.val % 64 * 4096 + b2.val % 64 * 64 + b3.val % 64)
                    :: decodeRunes t3

/-- Go `utf8.ValidString`: every byte belongs to a valid UTF-8 sequence. -/
def ValidString : GoString → Bool
  | [] => true
  | b0 :: t0 =>
    if b0.val < 0x80 then ValidString t0
    else
      match t0 with
      | [] => false
      | b1 :: t1 =>
        if acceptSecond b0.val b1.val = false then false
        else if b0.val < 0xE0 then ValidString t1
        else
          match t1 with
          | [] => false
          | b2 :: t2 =>
            if isCont b2.val = false then false
            else if b0.val < 0xF0 then ValidString t2
            else
              match t2 with
              | [] => false
              | b3 :: t3 =>
                if isCont b3.val = false then false
                else ValidString t3

/-- Go `utf8.EncodeRune`: the UTF-8 bytes of a rune, those of `U+FFFD` for a surrogate or a
value above `U+10FFFF`. -/
def encodeRune (r : Nat) : GoString :=
  if r < 0x80 then [byte r]
  else if r < 0x800 then [byte (0xC0 + r / 64), byte (0x80 + r % 64)]
  else if 0x10FFFF < r ∨ (0xD800 ≤ r ∧ r ≤ 0xDFFF) then [byte 0xEF, byte 0xBF, byte 0xBD]
  else if r < 0x10000 then
    [byte (0xE0 + r / 4096), byte (0x80 + r / 64 % 64), byte (0x80 + r % 64)]
  else
    [byte (0xF0 + r / 262144), byte (0x80 + r / 4096 % 64), byte (0x80 + r / 64 % 64),
      byte (0x80 + r % 64)]

/-- Go `string(rs)` for a rune slice. -/
def encodeRunes (rs : List Nat) : GoString := rs.flatMap encodeRune

/-- The pieces of a byte string between occurrences of `sep`; `cur` holds the bytes of the
piece being read, last read first. -/
def splitBytes (sep : Fin 256) : GoString → GoString → List GoString
  | [], cur => [cur.reverse]
  | c :: cs, cur =>
    if c = sep then cur.reverse :: splitBytes sep cs []
    else splitBytes sep cs (c :: cur)

/-- Go `KeyFromString` (lines 391-399) on an arbitrary Go string, returning the `Path` of the
key: `"."` is the byte `0x2E`, `string([]rune(kp)[1:])` decodes, drops the first rune and
encodes again. -/
def KeyFromGoString (kp : GoString) : Except String (List GoString) :=
  if kp = [0x2E] then .ok []
  else
    let kp := if ([0x2E] : GoString).isPrefixOf kp then encodeRunes ((decodeRunes kp).drop 1)
      else kp
    .ok (splitBytes 0x2E kp [])

/-- Remove one leading `0x2E` byte, if there is one. -/
def dropLeadingDotByte : GoString → GoString
  | b :: bs => if b = 0x2E then bs else b :: bs
  | [] => []

/-- The key-expression grammar in words, on byte strings: drop one leading dot if there is
one, then cut the rest at every dot. -/
def bytesByRule (e : GoString) : List GoString :=
  (dropLeadingDotByte e).splitOn 0x2E

/-- The bytes of `a`, `0xFF`, `b`: not valid UTF-8. -/
def invalidExpr : GoString := [0x61, 0xFF, 0x62]

/-- Go `PartitionByKey` with the run-time panic of map indexing: `part[ks]` panics when the
dynamic type of `ks` is a slice or a map, which is the result `none`. -/
def PartitionByKeyChecked (key : JSON → JSON) (seq : List JSON) :
    Option (List (JSON × List JSON)) :=
  seq.foldl
    (fun part x =>
      match part with
      | none => none
      | some part =>
        let ks := key x
        if ks.isScalar then
          let pk := match mapGet part ks with
            | some pk => pk
            | none => []
          some (mapSet part ks (pk ++ [x]))
        else none)
    (some [])

/-- The Go string holding a text: the UTF-8 bytes of its characters. -/
def utf8 (s : String) : GoString := encodeRunes (s.data.map Char.toNat)

mutual
/-- No keyed mapping anywhere inside the document has a field whose name is the empty string. -/
def noEmptyField : JSON → Bool
  | .obj fs => noEmptyFieldIn fs
  | .arr xs => noEmptyFieldAll xs
  | _ => true
/-- Every document of the sequence satisfies `noEmptyField`. -/
def noEmptyFieldAll : List JSON → Bool
  | [] => true
  | x :: xs => noEmptyField x && noEmptyFieldAll xs
/-- No field of the list is named by the empty string, and every field value satisfies `noEmptyField`. -/
def noEmptyFieldIn : List (String × JSON) → Bool
  | [] => true
  | (k, v) :: fs => decide (k ≠ "") && noEmptyField v && noEmptyFieldIn fs
end

/-! ## Key paths -/

theorem getLoop_cons (p : String) (ps : List String) (v : JSON) :
    getLoop (p :: ps) v =
      match v with
      | .obj fs =>
        match mapGet fs p with
        | some c => getLoop ps c
        | none => (false, .null)
      | _ => (false, .null) := by
  cases v <;> simp [getLoop, nextDict]
  rename_i fs
  cases mapGet fs p <;> simp

/-- C3: `Key.Get` follows the resolution algorithm. With the empty path it classifies the
value; with path `p :: rest` it fails with `(false, null)` unless the value is a keyed
mapping that has the field `p`, and then it is `Get` of `rest` on that field's value; a
sequence met while segments remain makes resolution fail whatever its elements are. -/
theorem Key_Get_resolution :
    (∀ v : JSON, Key.Get { Path := [] } v = terminalComponent v) ∧
    (∀ (p : String) (rest : List String) (v : JSON),
      Key.Get { Path := p :: rest } v =
        match v with
        | .obj fs =>
          match mapGet fs p with
          | some c => Key.Get { Path := rest } c
          | none => (false, .null)
        | _ => (false, .null)) ∧
    (∀ (p : String) (rest : List String) (xs : List JSON),
      Key.Get { Path := p :: rest } (.arr xs) = (false, .null)) := by
  refine ⟨fun v => rfl, fun p rest v => ?_, fun p rest xs => ?_⟩
  · simp only [Key.Get]
    exact getLoop_cons p rest v
  · simp [Key.Get, getLoop_cons]

/-- C4: `KeyFromString(".")` is the empty path, and `Get` with the empty path returns
`(true, v)` for null, booleans, numbers and strings and `found = false` for sequences and
keyed mappings. -/
theorem identity_path_Get :
    KeyFromString "." = .ok { Path := [] } ∧
    Key.Get { Path := [] } .null = (true, .null) ∧
    (∀ b, Key.Get { Path := [] } (.bool b) = (true, .bool b)) ∧
    (∀ n, Key.Get { Path := [] } (.num n) = (true, .num n)) ∧
    (∀ s, Key.Get { Path := [] } (.str s) = (true, .str s)) ∧
    (∀ xs, (Key.Get { Path := [] } (.arr xs)).1 = false) ∧
    (∀ fs, (Key.Get { Path := [] } (.obj fs)).1 = false) :=
  ⟨rfl, rfl, fun _ => rfl, fun _ => rfl, fun _ => rfl, fun _ => rfl, fun _ => rfl⟩

theorem splitChars_eq_go (sep : Char) (cs cur : List Char) :
    splitChars sep cs cur = (List.splitOnP.go (· == sep) cs cur).map String.mk := by
  induction cs generalizing cur with
  | nil => simp [splitChars, List.splitOnP.go]
  | cons c cs ih =>
    by_cases h : c = sep
    · simp [splitChars, List.splitOnP.go, h, ih]
    · simp [splitChars, List.splitOnP.go, h, ih]

theorem Split_eq_splitOn (s : String) (sep : Char) :
    Split s sep = (s.data.splitOn sep).map String.mk := by
  simp [Split, List.splitOn, List.splitOnP, splitChars_eq_go]

theorem HasPrefix_dot (e : String) :
    HasPrefix e "." = match e.data with
      | '.' :: _ => true
      | _ => false := by
  rcases e with ⟨cs⟩
  cases cs with
  | nil => rfl
  | cons c cs =>
    by_cases h : c = '.'
    · subst h; simp [HasPrefix, List.isPrefixOf]
    · have h2 : ('.' == c) = false := by simpa using fun e => h e.symm
      simp only [HasPrefix, List.isPrefixOf]
      split
      · rename_i heq; simp at heq; exact absurd heq.1 h
      · simp [String.data, h2]

theorem dropLeadingDot_cons_ne (c : Char) (cs : List Char) (hc : c ≠ '.') :
    dropLeadingDot (c :: cs) = c :: cs := by
  unfold dropLeadingDot
  split
  · rename_i heq; simp at heq; exact absurd heq.1 hc
  · rfl

theorem KeyFromString_eq_rule (e : String) (h : e ≠ ".") :
    KeyFromString e = .ok { Path := parseByRule e } := by
  rcases e with ⟨cs⟩
  simp only [KeyFromString, if_neg h, HasPrefix_dot, parseByRule, Split_eq_splitOn]
  cases cs with
  | nil => rfl
  | cons c cs =>
    by_cases hc : c = '.'
    · subst hc; simp [dropLeadingDot]
    · have : (match c :: cs with | '.' :: _ => true | _ => false) = false := by
        split
        · rename_i heq; simp at heq; exact absurd heq.1 hc
        · rfl
      simp [this, dropLeadingDot_cons_ne c cs hc]

/-- On key expressions that are texts: for every expression other than the literal `"."`,
`KeyFromString` succeeds with the path obtained by removing one leading dot (if the
expression begins with one) and splitting the rest at the dots, left to right; hence for a
non-empty expression that does not begin with a dot, prefixing a dot does not change the
parsed path. -/
theorem KeyFromString_path (e : String) (h : e ≠ ".") :
    KeyFromString e = .ok { Path := parseByRule e } ∧
    (HasPrefix e "." = false → e ≠ "" → KeyFromString ("." ++ e) = KeyFromString e) := by
  refine ⟨KeyFromString_eq_rule e h, fun hp hne => ?_⟩
  have h1 : "." ++ e ≠ "." := by
    intro heq
    apply hne
    have := congrArg String.data heq
    simp at this
    exact String.ext this
  rw [KeyFromString_eq_rule _ h1, KeyFromString_eq_rule _ h]
  rcases e with ⟨cs⟩
  rw [HasPrefix_dot] at hp
  simp only [parseByRule, String.data_append]
  cases cs with
  | nil => exact absurd rfl hne
  | cons c cs =>
    by_cases hc : c = '.'
    · subst hc; simp at hp
    · rw [dropLeadingDot_cons_ne c cs hc]
      rfl

theorem KeyFromString_path_witness :
    "a.b" ≠ "." ∧ KeyFromString "a.b" = .ok { Path := ["a", "b"] } ∧
      KeyFromString ("." ++ "a.b") = KeyFromString "a.b" :=
  ⟨by decide, (KeyFromString_path "a.b" (by decide)).1.trans rfl,
    (KeyFromString_path "a.b" (by decide)).2 rfl (by decide)⟩

theorem noEmptyFieldIn_mapGet (fs : List (String × JSON)) (p : String) (c : JSON)
    (hfs : noEmptyFieldIn fs = true) (hc : mapGet fs p = some c) :
    p ≠ "" ∧ noEmptyField c = true := by
  induction fs with
  | nil => simp [mapGet] at hc
  | cons f fs ih =>
    obtain ⟨k, v⟩ := f
    simp only [noEmptyFieldIn, Bool.and_eq_true, decide_eq_true_eq] at hfs
    by_cases hk : k = p
    · simp only [mapGet, if_pos hk, Option.some.injEq] at hc
      subst hk; subst hc
      exact ⟨hfs.1.1, hfs.1.2⟩
    · simp only [mapGet, if_neg hk] at hc
      exact ih hfs.2 hc

theorem getLoop_empty_segment (path : List String) (v : JSON)
    (hp : "" ∈ path) (hv : noEmptyField v = true) : (getLoop path v).1 = false := by
  induction path generalizing v with
  | nil => simp at hp
  | cons p ps ih =>
    rw [getLoop_cons]
    cases v with
    | obj fs =>
      simp only
      cases hc : mapGet fs p with
      | none => rfl
      | some c =>
        simp only
        have hfs : noEmptyFieldIn fs = true := by simpa [noEmptyField] using hv
        obtain ⟨hne, hcn⟩ := noEmptyFieldIn_mapGet fs p c hfs hc
        have hps : "" ∈ ps := by
          rcases List.mem_cons.1 hp with h | h
          · exact absurd h.symm hne
          · exact h
        exact ih c hps hcn
    | _ => rfl

/-- C6 (as stated, refuted): the path parsed from `"a..b"` is `["a", "", "b"]`, and it
resolves on the document `{"a": {"": {"b": 1}}}`, whose inner mapping has a field named by
the empty string. -/
theorem empty_segment_can_resolve :
    KeyFromString "a..b" = .ok { Path := ["a", "", "b"] } ∧
    Key.Get { Path := ["a", "", "b"] }
      (.obj [("a", .obj [("", .obj [("b", .num 1)])])]) = (true, .num 1) :=
  ⟨rfl, by decide⟩

/-- C6 (amended): the path parsed from `"a..b"` contains an empty-string segment, and a path
that contains an empty-string segment fails to resolve on every document in which no keyed
mapping has a field named by the empty string. -/
theorem empty_segment_fails (path : List String) (v : JSON)
    (hp : "" ∈ path) (hv : noEmptyField v = true) :
    KeyFromString "a..b" = .ok { Path := ["a", "", "b"] } ∧
    (Key.Get { Path := path } v).1 = false :=
  ⟨rfl, getLoop_empty_segment path v hp hv⟩

theorem empty_segment_fails_witness :
    "" ∈ ["a", "", "b"] ∧
    noEmptyField (.obj [("a", .obj [("x", .obj [("b", .num 1)])])]) = true ∧
    KeyFromString "a..b" = .ok { Path := ["a", "", "b"] } ∧
    (Key.Get { Path := ["a", "", "b"] }
      (.obj [("a", .obj [("x", .obj [("b", .num 1)])])])).1 = false :=
  ⟨by decide, by decide,
    empty_segment_fails ["a", "", "b"] (.obj [("a", .obj [("x", .obj [("b", .num 1)])])])
      (by decide) (by decide)⟩

/-! ## Go maps: reading after writing -/

theorem mapGet_mapSet {K V : Type} [DecidableEq K] (m : List (K × V)) (k k' : K) (v : V) :
    mapGet (mapSet m k v) k' = if k = k' then some v else mapGet m k' := by
  induction m with
  | nil => simp [mapSet, mapGet]
  | cons e m ih =>
    obtain ⟨a, b⟩ := e
    by_cases h : a = k
    · subst h
      by_cases h2 : a = k' <;> simp [mapSet, mapGet, h2]
    · by_cases h2 : a = k'
      · subst h2
        simp [mapSet, mapGet, h, Ne.symm h]
      · simp [mapSet, mapGet, h, h2, ih]

theorem mem_mapKeys_mapSet {K V : Type} [DecidableEq K] (m : List (K × V)) (k k' : K) (v : V) :
    k' ∈ mapKeys (mapSet m k v) ↔ k' = k ∨ k' ∈ mapKeys m := by
  induction m with
  | nil => simp [mapSet, mapKeys]
  | cons e m ih =>
    obtain ⟨a, b⟩ := e
    by_cases h : a = k
    · subst h; simp [mapSet, mapKeys]
    · simp only [mapKeys] at ih
      simp only [mapSet, if_neg h, mapKeys, List.map_cons, List.mem_cons, ih]
      tauto

theorem nodup_mapKeys_mapSet {K V : Type} [DecidableEq K] (m : List (K × V)) (k : K) (v : V)
    (h : (mapKeys m).Nodup) : (mapKeys (mapSet m k v)).Nodup := by
  induction m with
  | nil => simp [mapSet, mapKeys]
  | cons e m ih =>
    obtain ⟨a, b⟩ := e
    have h' : a ∉ mapKeys m ∧ (mapKeys m).Nodup := by simpa [mapKeys] using h
    by_cases hk : a = k
    · subst hk
      simpa [mapSet, mapKeys] using h
    · have := ih h'.2
      simp only [mapSet, if_neg hk]
      show (a :: mapKeys (mapSet m k v)).Nodup
      refine List.nodup_cons.2 ⟨?_, this⟩
      rw [mem_mapKeys_mapSet]
      rintro (h1 | h1)
      · exact hk h1
      · exact h'.1 h1

theorem mapGet_eq_none_iff {K V : Type} [DecidableEq K] (m : List (K × V)) (k : K) :
    mapGet m k = none ↔ k ∉ mapKeys m := by
  induction m with
  | nil => simp [mapGet, mapKeys]
  | cons e m ih =>
    obtain ⟨a, b⟩ := e
    by_cases h : a = k
    · subst h; simp [mapGet, mapKeys]
    · simp only [mapKeys] at ih
      simp [mapGet, mapKeys, h, ih, Ne.symm h]

theorem mapGet_eq_some_iff {K V : Type} [DecidableEq K] (m : List (K × V)) (k : K) (v : V)
    (h : (mapKeys m).Nodup) : mapGet m k = some v ↔ (k, v) ∈ m := by
  induction m with
  | nil => simp [mapGet]
  | cons e m ih =>
    obtain ⟨a, b⟩ := e
    have h' : a ∉ mapKeys m ∧ (mapKeys m).Nodup := by simpa [mapKeys] using h
    by_cases hk : a = k
    · subst hk
      simp only [mapGet, if_true, Option.some.injEq, List.mem_cons, Prod.mk.injEq, true_and]
      constructor
      · intro e; exact Or.inl e.symm
      · rintro (e | e)
        · exact e.symm
        · exact absurd (List.mem_map_of_mem Prod.fst e) h'.1
    · simp only [mapGet, if_neg hk, List.mem_cons, Prod.mk.injEq, ih h'.2]
      constructor
      · exact Or.inr
      · rintro (e | e)
        · exact absurd e.1.symm hk
        · exact e

/-! ## `Filter` and `PartitionByKey` -/

theorem Filter_foldl (key : JSON → Bool) (seq acc : List JSON) :
    seq.foldl (fun r x => if key x then r ++ [x] else r) acc = acc ++ seq.filter key := by
  induction seq generalizing acc with
  | nil => simp
  | cons x xs ih =>
    by_cases h : key x = true
    · simp [List.foldl, ih, h]
    · simp [List.foldl, ih, h]

theorem Filter_eq_filter (key : JSON → Bool) (seq : List JSON) :
    Filter key seq = seq.filter key := by
  simp [Filter, Filter_foldl]

/-- One iteration of the loop of `PartitionByKey`. -/
theorem PartitionByKey_snoc (key : JSON → JSON) (seq : List JSON) (x : JSON) :
    PartitionByKey key (seq ++ [x]) =
      mapSet (PartitionByKey key seq) (key x) (bucketOf (PartitionByKey key seq) (key x) ++ [x]) := by
  simp only [PartitionByKey, List.foldl_append, List.foldl_cons, List.foldl_nil, bucketOf]

theorem PartitionByKey_nodup (key : JSON → JSON) (seq : List JSON) :
    (mapKeys (PartitionByKey key seq)).Nodup := by
  induction seq using List.reverseRecOn with
  | nil => simp [PartitionByKey, mapKeys]
  | append_singleton xs x ih =>
    rw [PartitionByKey_snoc]
    exact nodup_mapKeys_mapSet _ _ _ ih

theorem PartitionByKey_get (key : JSON → JSON) (seq : List JSON) (kk : JSON) :
    mapGet (PartitionByKey key seq) kk =
      if seq.filter (fun x => decide (key x = kk)) = [] then none
      else some (seq.filter (fun x => decide (key x = kk))) := by
  induction seq using List.reverseRecOn with
  | nil => simp [PartitionByKey, mapGet]
  | append_singleton xs x ih =>
    rw [PartitionByKey_snoc, mapGet_mapSet]
    by_cases h : key x = kk
    · subst h
      simp only [if_true, bucketOf, ih, List.filter_append]
      by_cases he : xs.filter (fun y => decide (key y = key x)) = []
      · simp [he]
      · simp [he]
    · simp [h, ih, List.filter_append]

theorem bucketOf_PartitionByKey (key : JSON → JSON) (seq : List JSON) (kk : JSON) :
    bucketOf (PartitionByKey key seq) kk = seq.filter (fun x => decide (key x = kk)) := by
  rw [bucketOf, PartitionByKey_get]
  by_cases he : seq.filter (fun x => decide (key x = kk)) = []
  · simp [he]
  · simp [he]

theorem mem_mapKeys_PartitionByKey (key : JSON → JSON) (seq : List JSON) (kk : JSON) :
    kk ∈ mapKeys (PartitionByKey key seq) ↔ ∃ x ∈ seq, key x = kk := by
  have h := mapGet_eq_none_iff (PartitionByKey key seq) kk
  rw [PartitionByKey_get] at h
  by_cases he : seq.filter (fun x => decide (key x = kk)) = []
  · simp only [he, if_true, true_iff] at h
    simp only [List.filter_eq_nil_iff, decide_eq_true_eq] at he
    constructor
    · intro hm; exact absurd hm h
    · rintro ⟨x, hx, hk⟩; exact absurd hk (he x hx)
  · simp only [he, if_false, reduceCtorEq, false_iff, not_not] at h
    simp only [List.filter_eq_nil_iff, decide_eq_true_eq, not_forall] at he
    obtain ⟨x, hx, hk⟩ := he
    exact ⟨fun _ => ⟨x, hx, not_not.1 hk⟩, fun _ => h⟩

theorem sum_countP_mapSet (q : JSON → Bool) (m : List (JSON × List JSON)) (k x : JSON) :
    ((mapSet m k (bucketOf m k ++ [x])).map (fun e => e.2.countP q)).sum =
      (m.map (fun e => e.2.countP q)).sum + (if q x then 1 else 0) := by
  induction m with
  | nil => simp [mapSet, bucketOf, mapGet, List.countP_cons]
  | cons e m ih =>
    obtain ⟨a, b⟩ := e
    by_cases h : a = k
    · subst h
      simp [mapSet, bucketOf, mapGet, List.countP_append, List.countP_cons]
      omega
    · have hb : bucketOf ((a, b) :: m) k = bucketOf m k := by simp [bucketOf, mapGet, h]
      rw [hb]
      simp only [mapSet, if_neg h, List.map_cons, List.sum_cons, ih]
      omega

theorem sum_countP_PartitionByKey (q : JSON → Bool) (key : JSON → JSON) (seq : List JSON) :
    ((PartitionByKey key seq).map (fun e => e.2.countP q)).sum = seq.countP q := by
  induction seq using List.reverseRecOn with
  | nil => simp [PartitionByKey]
  | append_singleton xs x ih =>
    rw [PartitionByKey_snoc, sum_countP_mapSet, ih]
    simp [List.countP_append, List.countP_cons]


/-- The map built by the loop of `PartitionByKey key s`: the keys are pairwise distinct, an
entry `(kk, b)` is present exactly when `b` is non-empty and is the subsequence of `s`, in
the original order, of the records whose key is `kk`, and `kk` has an entry exactly when some
record of `s` has key `kk`. -/
theorem PartitionByKey_buckets (key : JSON → JSON) (s : List JSON) :
    (mapKeys (PartitionByKey key s)).Nodup ∧
    (∀ kk b, (kk, b) ∈ PartitionByKey key s ↔
      (b ≠ [] ∧ b = s.filter (fun x => decide (key x = kk)))) ∧
    (∀ kk, kk ∈ mapKeys (PartitionByKey key s) ↔ ∃ x ∈ s, key x = kk) := by
  refine ⟨PartitionByKey_nodup key s, fun kk b => ?_, mem_mapKeys_PartitionByKey key s⟩
  rw [← mapGet_eq_some_iff _ _ _ (PartitionByKey_nodup key s), PartitionByKey_get]
  by_cases he : s.filter (fun x => decide (key x = kk)) = []
  · simp only [he, if_true, reduceCtorEq, false_iff, not_and]
    intro h1 h2; exact h1 h2
  · simp only [he, if_false, Option.some.injEq]
    constructor
    · intro h; subst h; exact ⟨he, rfl⟩
    · intro h; exact h.2.symm

/-- C7: in `PartitionByKey(k.Value, Filter(k.Exists, s))` the keys are pairwise distinct;
for a record `x` with `k.Exists x`, all its occurrences in `s` are in the bucket under
`k.Value x` and the buckets together hold exactly as many occurrences of `x` as `s`; a
bucket that contains `x` is the one under `k.Value x`, and then `x` is a record of `s` with
`k.Exists x`; the bucket lengths add up to the number of records of `s` with `k.Exists`. -/
theorem partition_complete (k : Key) (s : List JSON) :
    (mapKeys (PartitionByKey k.Value (Filter k.Exists s))).Nodup ∧
    (∀ x, k.Exists x = true →
      (bucketOf (PartitionByKey k.Value (Filter k.Exists s)) (k.Value x)).count x = s.count x ∧
      ((PartitionByKey k.Value (Filter k.Exists s)).map (fun e => e.2.count x)).sum
        = s.count x) ∧
    (∀ x kk b, (kk, b) ∈ PartitionByKey k.Value (Filter k.Exists s) → x ∈ b →
      kk = k.Value x ∧ k.Exists x = true ∧ x ∈ s) ∧
    ((PartitionByKey k.Value (Filter k.Exists s)).map (fun e => e.2.length)).sum
      = s.countP k.Exists := by
  refine ⟨PartitionByKey_nodup _ _, fun x hx => ⟨?_, ?_⟩, fun x kk b hb hxb => ?_, ?_⟩
  · rw [bucketOf_PartitionByKey, Filter_eq_filter, List.count_filter (by simp),
      List.count_filter hx]
  · have := sum_countP_PartitionByKey (fun y => y == x) k.Value (Filter k.Exists s)
    simp only [List.count]
    rw [this, Filter_eq_filter]
    exact List.count_filter hx
  · rw [← mapGet_eq_some_iff _ _ _ (PartitionByKey_nodup _ _), PartitionByKey_get] at hb
    by_cases he : (Filter k.Exists s).filter (fun y => decide (k.Value y = kk)) = []
    · simp [he] at hb
    · simp only [he, if_false, Option.some.injEq] at hb
      subst hb
      rw [Filter_eq_filter] at hxb
      simp only [List.mem_filter, decide_eq_true_eq] at hxb
      exact ⟨hxb.2.symm, hxb.1.2, hxb.1.1⟩
  · have := sum_countP_PartitionByKey (fun _ => true) k.Value (Filter k.Exists s)
    simp only [List.countP_true] at this
    rw [this, Filter_eq_filter, List.countP_eq_length_filter]

/-! ## The join loop -/

theorem foldl_snoc_map {α β : Type} (g : α → β) (l : List α) (j : List β) :
    l.foldl (fun j x => j ++ [g x]) j = j ++ l.map g := by
  induction l generalizing j with
  | nil => simp
  | cons x xs ih => simp [List.foldl, ih]

theorem foldl_cross (L R : List JSON) (j : List JoinedPair) :
    L.foldl (fun j xl => R.foldl (fun j xr => j ++ [JoinedPair.mk xl xr]) j) j =
      j ++ L.flatMap (fun l => R.map (fun r => JoinedPair.mk l r)) := by
  induction L generalizing j with
  | nil => simp
  | cons x xs ih =>
    simp only [List.foldl, List.flatMap_cons]
    rw [foldl_snoc_map (fun xr => JoinedPair.mk x xr) R j, ih, List.append_assoc]

theorem joinStep_eq (lp rp : List (JSON × List JSON)) (i lo ro : Bool)
    (j : List JoinedPair) (k : JSON) :
    joinStep lp rp i lo ro j k = j ++ joinBlock i lo ro (bucketOf lp k) (bucketOf rp k) := by
  have hs : joinStep lp rp i lo ro j k =
      (fun (left right : List JSON) =>
        let j1 := if (i && decide (left.length > 0) && decide (right.length > 0)) = true then
            left.foldl (fun j xl => right.foldl (fun j xr => j ++ [JoinedPair.mk xl xr]) j) j
          else j
        let j2 := if (lo && decide (left.length > 0) && decide (right.length = 0)) = true then
            left.foldl (fun j x => j ++ [JoinedPair.mk x .null]) j1
          else j1
        if (ro && decide (left.length = 0) && decide (right.length > 0)) = true then
            right.foldl (fun j x => j ++ [JoinedPair.mk .null x]) j2
          else j2) (bucketOf lp k) (bucketOf rp k) := rfl
  rw [hs]
  generalize bucketOf lp k = L
  generalize bucketOf rp k = R
  simp only [foldl_cross]
  simp only [foldl_snoc_map, joinBlock]
  rcases L with _ | ⟨l, L⟩ <;> rcases R with _ | ⟨r, R⟩ <;>
    cases i <;> cases lo <;> cases ro <;> simp

theorem foldl_joinStep (lp rp : List (JSON × List JSON)) (i lo ro : Bool)
    (order : List JSON) (j : List JoinedPair) :
    order.foldl (joinStep lp rp i lo ro) j =
      j ++ order.flatMap (fun k => joinBlock i lo ro (bucketOf lp k) (bucketOf rp k)) := by
  induction order generalizing j with
  | nil => simp
  | cons k ks ih => simp [List.foldl, ih, joinStep_eq, List.append_assoc]

theorem joinLoop_eq (lp rp : List (JSON × List JSON)) (i lo ro : Bool) (order : List JSON) :
    joinLoop order lp rp i lo ro =
      order.flatMap (fun k => joinBlock i lo ro (bucketOf lp k) (bucketOf rp k)) := by
  simp [joinLoop, foldl_joinStep]

theorem foldl_mapSet_unit (ks : List JSON) (m : List (JSON × Unit)) (h : (mapKeys m).Nodup) :
    (mapKeys (ks.foldl (fun k kl => mapSet k kl ()) m)).Nodup ∧
    ∀ k, k ∈ mapKeys (ks.foldl (fun k kl => mapSet k kl ()) m) ↔ k ∈ mapKeys m ∨ k ∈ ks := by
  induction ks generalizing m with
  | nil => simp [h]
  | cons a ks ih =>
    have := ih (mapSet m a ()) (nodup_mapKeys_mapSet m a () h)
    refine ⟨this.1, fun k => ?_⟩
    simp only [List.foldl, this.2, mem_mapKeys_mapSet, List.mem_cons]
    tauto

theorem UnionKeys_keys (left right : List (JSON × List JSON)) :
    (mapKeys (UnionKeys left right)).Nodup ∧
    ∀ k, k ∈ mapKeys (UnionKeys left right) ↔ k ∈ mapKeys left ∨ k ∈ mapKeys right := by
  have h1 := foldl_mapSet_unit (mapKeys left) [] (by simp [mapKeys])
  have h2 := foldl_mapSet_unit (mapKeys right) _ h1.1
  refine ⟨h2.1, fun k => ?_⟩
  simp only [UnionKeys, h2.2, h1.2]
  simp [mapKeys]

theorem IsRange_joinKeys (p : JoinParams) (order : List JSON) (h : IsRange (joinKeys p) order) :
    order.Nodup ∧
    ∀ k, k ∈ order ↔ k ∈ mapKeys (leftByKey p) ∨ k ∈ mapKeys (rightByKey p) := by
  have hk := UnionKeys_keys (leftByKey p) (rightByKey p)
  exact ⟨(List.Perm.nodup_iff h).2 hk.1, fun k => (List.Perm.mem_iff h).trans (hk.2 k)⟩

/-- C2: for every visiting order of the key union, the keys visited are those of the two
partitions, each exactly once, and the output of `PerformJoin` is the concatenation over
the visited keys of the block of the key's left and right buckets: the cross product in
left-major order, the left-only pairs, the right-only pairs or nothing. -/
theorem PerformJoin_blocks (order : List JSON) (p : JoinParams) (inner leftOuter rightOuter : Bool)
    (h : IsRange (joinKeys p) order) :
    order.Nodup ∧
    (∀ k, k ∈ order ↔ k ∈ mapKeys (leftByKey p) ∨ k ∈ mapKeys (rightByKey p)) ∧
    PerformJoin order p inner leftOuter rightOuter =
      order.flatMap (fun k =>
        joinBlock inner leftOuter rightOuter
          (bucketOf (leftByKey p) k) (bucketOf (rightByKey p) k)) :=
  ⟨(IsRange_joinKeys p order h).1, (IsRange_joinKeys p order h).2, joinLoop_eq _ _ _ _ _ _⟩

theorem PerformJoin_blocks_witness :
    IsRange (joinKeys twoStreams) [.num 3, .num 1, .num 2] ∧
    PerformJoin [.num 3, .num 1, .num 2] twoStreams true true true =
      [JoinedPair.mk .null (.obj [("id", .num 3)]),
       JoinedPair.mk (.obj [("id", .num 1)]) .null,
       JoinedPair.mk (.obj [("id", .num 2)]) (.obj [("id", .num 2)])] :=
  ⟨by unfold IsRange; decide,
    (PerformJoin_blocks [.num 3, .num 1, .num 2] twoStreams true true true
      (by unfold IsRange; decide)).2.2.trans (by decide)⟩


theorem mem_joinBlock (i lo ro : Bool) (L R : List JSON) (jp : JoinedPair)
    (h : jp ∈ joinBlock i lo ro L R) :
    (i = true ∧ jp.Left ∈ L ∧ jp.Right ∈ R) ∨
    (lo = true ∧ jp.Left ∈ L ∧ jp.Right = .null ∧ R = []) ∨
    (ro = true ∧ jp.Left = .null ∧ L = [] ∧ jp.Right ∈ R) := by
  unfold joinBlock at h
  split at h
  · rename_i hc
    simp only [List.mem_flatMap, List.mem_map] at h
    obtain ⟨l, hl, r, hr, rfl⟩ := h
    exact Or.inl ⟨hc.1, hl, hr⟩
  · split at h
    · rename_i hc
      simp only [List.mem_map] at h
      obtain ⟨l, hl, rfl⟩ := h
      exact Or.inr (Or.inl ⟨hc.1, hl, rfl, hc.2.2⟩)
    · split at h
      · rename_i hc
        simp only [List.mem_map] at h
        obtain ⟨r, hr, rfl⟩ := h
        exact Or.inr (Or.inr ⟨hc.1, rfl, hc.2.1, hr⟩)
      · simp at h

theorem mem_bucketOf_leftByKey (p : JoinParams) (k x : JSON)
    (h : x ∈ bucketOf (leftByKey p) k) :
    x ∈ p.Left ∧ p.LeftKey.Exists x = true ∧ p.LeftKey.Value x = k := by
  rw [leftByKey, bucketOf_PartitionByKey, Filter_eq_filter] at h
  simp only [List.mem_filter, decide_eq_true_eq] at h
  exact ⟨h.1.1, h.1.2, h.2⟩

theorem mem_bucketOf_rightByKey (p : JoinParams) (k x : JSON)
    (h : x ∈ bucketOf (rightByKey p) k) :
    x ∈ p.Right ∧ p.RightKey.Exists x = true ∧ p.LeftKey.Value x = k := by
  rw [rightByKey, bucketOf_PartitionByKey, Filter_eq_filter] at h
  simp only [List.mem_filter, decide_eq_true_eq] at h
  exact ⟨h.1.1, h.1.2, h.2⟩

theorem mem_PerformJoin (order : List JSON) (p : JoinParams) (i lo ro : Bool) (jp : JoinedPair)
    (h : jp ∈ PerformJoin order p i lo ro) :
    ∃ k ∈ order, jp ∈ joinBlock i lo ro (bucketOf (leftByKey p) k) (bucketOf (rightByKey p) k) := by
  rw [PerformJoin, joinLoop_eq] at h
  exact List.mem_flatMap.1 h

theorem leftByKey_dropUnresolved (p : JoinParams) :
    leftByKey (dropUnresolved p) = leftByKey p := by
  simp [leftByKey, dropUnresolved, Filter_eq_filter, List.filter_filter]

theorem rightByKey_dropUnresolved (p : JoinParams) :
    rightByKey (dropUnresolved p) = rightByKey p := by
  simp [rightByKey, dropUnresolved, Filter_eq_filter, List.filter_filter]

/-- C9 (as stated, refuted): with left stream `[null]`, right stream `[{"a": 1}]` and key
`a` on both sides, the left record `null` has no resolvable key, yet the only output pair
of the full outer join has `null` as its left component: the absent marker of a
right-only pair is Go `nil`, the same value as the record `null`. -/
theorem null_record_equals_absent_component :
    JSON.null ∈ nullLeft.Left ∧
    nullLeft.LeftKey.Exists .null = false ∧
    IsRange (joinKeys nullLeft) (firstSeen nullLeft) ∧
    PerformJoin (firstSeen nullLeft) nullLeft true true true =
      [JoinedPair.mk .null (.obj [("a", .num 1)])] ∧
    (∃ jp ∈ PerformJoin (firstSeen nullLeft) nullLeft true true true,
      jp.Left = .null) :=
  ⟨by decide, by decide, List.Perm.refl _, by decide, by decide⟩

/-- C9 (amended): for every visiting order and every flag combination, no left record
other than `null` whose left key path does not resolve is the left component of an output
pair, no right record other than `null` whose right key path does not resolve is the right
component of an output pair, and removing the records whose own key path does not resolve
changes neither the key union nor the output. -/
theorem unresolved_records_do_not_join (order : List JSON) (p : JoinParams)
    (inner leftOuter rightOuter : Bool) :
    (∀ jp ∈ PerformJoin order p inner leftOuter rightOuter,
      (∀ l, l ≠ .null → p.LeftKey.Exists l = false → jp.Left ≠ l) ∧
      (∀ r, r ≠ .null → p.RightKey.Exists r = false → jp.Right ≠ r)) ∧
    joinKeys (dropUnresolved p) = joinKeys p ∧
    PerformJoin order (dropUnresolved p) inner leftOuter rightOuter =
      PerformJoin order p inner leftOuter rightOuter := by
  refine ⟨fun jp hjp => ?_, ?_, ?_⟩
  · obtain ⟨k, _, hk⟩ := mem_PerformJoin order p _ _ _ jp hjp
    have hm := mem_joinBlock _ _ _ _ _ jp hk
    constructor
    · intro l hl he heq
      have hL : jp.Left ∈ bucketOf (leftByKey p) k := by
        rcases hm with h | h | h
        · exact h.2.1
        · exact h.2.1
        · exact absurd (heq.symm.trans h.2.1) hl
      have := (mem_bucketOf_leftByKey p k _ hL).2.1
      rw [heq, he] at this
      exact absurd this (by decide)
    · intro r hr he heq
      have hR : jp.Right ∈ bucketOf (rightByKey p) k := by
        rcases hm with h | h | h
        · exact h.2.2
        · exact absurd (heq.symm.trans h.2.2.1) hr
        · exact h.2.2.2
      have := (mem_bucketOf_rightByKey p k _ hR).2.1
      rw [heq, he] at this
      exact absurd this (by decide)
  · simp only [joinKeys, leftByKey_dropUnresolved, rightByKey_dropUnresolved]
  · simp only [PerformJoin, leftByKey_dropUnresolved, rightByKey_dropUnresolved]

theorem unresolved_records_do_not_join_witness :
    JoinedPair.mk .null (.obj [("a", .num 1)]) ∈
      PerformJoin (firstSeen nullLeft) nullLeft true true true ∧
    nullLeft.LeftKey.Exists (.arr []) = false ∧
    (JoinedPair.mk .null (.obj [("a", .num 1)])).Left ≠ .arr [] ∧
    PerformJoin (firstSeen nullLeft) (dropUnresolved nullLeft) true true true =
      PerformJoin (firstSeen nullLeft) nullLeft true true true :=
  ⟨by decide, by decide,
    ((unresolved_records_do_not_join (firstSeen nullLeft) nullLeft true true true).1
      _ (by decide)).1 (.arr []) (by decide) (by decide),
    (unresolved_records_do_not_join (firstSeen nullLeft) nullLeft true true true).2.2⟩

theorem joinBlock_full_left (L R : List JSON) (l : JSON) (h : l ∈ L) :
    ∃ jp ∈ joinBlock true true true L R, jp.Left = l := by
  have hL : L ≠ [] := List.ne_nil_of_mem h
  cases R with
  | nil => exact ⟨JoinedPair.mk l .null, by simp [joinBlock, hL, h], rfl⟩
  | cons r R =>
    refine ⟨JoinedPair.mk l r, ?_, rfl⟩
    simp only [joinBlock, hL, ne_eq, not_false_eq_true, reduceCtorEq, and_self, if_true,
      List.mem_flatMap, List.mem_map]
    exact ⟨l, h, r, List.mem_cons_self _ _, rfl⟩

theorem joinBlock_full_right (L R : List JSON) (r : JSON) (h : r ∈ R) :
    ∃ jp ∈ joinBlock true true true L R, jp.Right = r := by
  have hR : R ≠ [] := List.ne_nil_of_mem h
  cases L with
  | nil => exact ⟨JoinedPair.mk .null r, by simp [joinBlock, hR, h], rfl⟩
  | cons l L =>
    refine ⟨JoinedPair.mk l r, ?_, rfl⟩
    simp only [joinBlock, hR, ne_eq, not_false_eq_true, reduceCtorEq, and_self, if_true,
      List.mem_flatMap, List.mem_map]
    exact ⟨l, List.mem_cons_self _ _, r, h, rfl⟩

/-- C10: for every visiting order of the key union, in the full outer join every left
record whose left key path resolves is the left component of some output pair, and every
right record whose right key path resolves is the right component of some output pair. -/
theorem full_outer_join_complete (order : List JSON) (p : JoinParams)
    (h : IsRange (joinKeys p) order) :
    (∀ l ∈ p.Left, p.LeftKey.Exists l = true →
      ∃ jp ∈ PerformJoin order p true true true, jp.Left = l) ∧
    (∀ r ∈ p.Right, p.RightKey.Exists r = true →
      ∃ jp ∈ PerformJoin order p true true true, jp.Right = r) := by
  have hr := (IsRange_joinKeys p order h).2
  constructor
  · intro l hl he
    have hb : l ∈ bucketOf (leftByKey p) (p.LeftKey.Value l) := by
      rw [leftByKey, bucketOf_PartitionByKey, Filter_eq_filter]
      simp [hl, he]
    have hk : p.LeftKey.Value l ∈ order := by
      rw [hr]; left
      rw [leftByKey, mem_mapKeys_PartitionByKey]
      exact ⟨l, by rw [Filter_eq_filter]; simp [hl, he], rfl⟩
    obtain ⟨jp, hjp, hjl⟩ := joinBlock_full_left _ (bucketOf (rightByKey p) (p.LeftKey.Value l)) l hb
    refine ⟨jp, ?_, hjl⟩
    rw [PerformJoin, joinLoop_eq]
    exact List.mem_flatMap.2 ⟨_, hk, hjp⟩
  · intro r hrm he
    have hb : r ∈ bucketOf (rightByKey p) (p.LeftKey.Value r) := by
      rw [rightByKey, bucketOf_PartitionByKey, Filter_eq_filter]
      simp [hrm, he]
    have hk : p.LeftKey.Value r ∈ order := by
      rw [hr]; right
      rw [rightByKey, mem_mapKeys_PartitionByKey]
      exact ⟨r, by rw [Filter_eq_filter]; simp [hrm, he], rfl⟩
    obtain ⟨jp, hjp, hjr⟩ := joinBlock_full_right (bucketOf (leftByKey p) (p.LeftKey.Value r)) _ r hb
    refine ⟨jp, ?_, hjr⟩
    rw [PerformJoin, joinLoop_eq]
    exact List.mem_flatMap.2 ⟨_, hk, hjp⟩

theorem full_outer_join_complete_witness :
    IsRange (joinKeys twoStreams) [.num 3, .num 1, .num 2] ∧
    (∃ jp ∈ PerformJoin [.num 3, .num 1, .num 2] twoStreams true true true,
      jp.Left = .obj [("id", .num 1)]) ∧
    (∃ jp ∈ PerformJoin [.num 3, .num 1, .num 2] twoStreams true true true,
      jp.Right = .obj [("id", .num 3)]) :=
  ⟨by unfold IsRange; decide,
    (full_outer_join_complete [.num 3, .num 1, .num 2] twoStreams
      (by unfold IsRange; decide)).1 _ (by decide) (by decide),
    (full_outer_join_complete [.num 3, .num 1, .num 2] twoStreams
      (by unfold IsRange; decide)).2 _ (by decide) (by decide)⟩

/-- C1 (the code at a failing input): the left record `{"a": 1}` under key `a` and the right
record `{"b": 1}` under key `b` have the same key value 1, but `PerformJoin` files the right
record under the value of the LEFT key path on it (null), so for every visiting order the
inner join is empty, while joining the partition of the right records by the right key
path gives the matched pair. -/
theorem PerformJoin_groups_right_by_left_key :
    diffKeys.LeftKey.Value (.obj [("a", .num 1)]) = .num 1 ∧
    diffKeys.RightKey.Value (.obj [("b", .num 1)]) = .num 1 ∧
    rightByKey diffKeys = [(.null, [.obj [("b", .num 1)]])] ∧
    rightByOwnKey diffKeys = [(.num 1, [.obj [("b", .num 1)]])] ∧
    (∀ order, PerformJoin order diffKeys true false false = []) ∧
    joinLoop (mapKeys (UnionKeys (leftByKey diffKeys) (rightByOwnKey diffKeys)))
        (leftByKey diffKeys) (rightByOwnKey diffKeys) true false false =
      [JoinedPair.mk (.obj [("a", .num 1)]) (.obj [("b", .num 1)])] := by
  refine ⟨by decide, by decide, by decide, by decide, fun order => ?_, by decide⟩
  rw [PerformJoin, joinLoop_eq, List.flatMap_eq_nil_iff]
  intro k _
  have hl : leftByKey diffKeys = [(.num 1, [.obj [("a", .num 1)]])] := by decide
  have hr : rightByKey diffKeys = [(.null, [.obj [("b", .num 1)]])] := by decide
  rw [hl, hr]
  by_cases h1 : k = .null
  · subst h1; decide
  · have : bucketOf [(JSON.null, [JSON.obj [("b", JSON.num 1)]])] k = [] := by
      simp [bucketOf, mapGet, Ne.symm h1]
    simp [joinBlock, this]

/-! ## Sizes, one-sided pairs and the absent marker -/

theorem bucketOf_eq_nil_of_not_mem (m : List (JSON × List JSON)) (k : JSON)
    (h : k ∉ mapKeys m) : bucketOf m k = [] := by
  rw [bucketOf, (mapGet_eq_none_iff m k).2 h]

theorem bucketOf_PartitionByKey_ne_nil (key : JSON → JSON) (seq : List JSON) (kk : JSON) :
    bucketOf (PartitionByKey key seq) kk ≠ [] ↔ kk ∈ mapKeys (PartitionByKey key seq) := by
  rw [bucketOf_PartitionByKey, mem_mapKeys_PartitionByKey, ne_eq, List.filter_eq_nil_iff]
  simp

theorem length_joinBlock_inner (L R : List JSON) :
    (joinBlock true false false L R).length = L.length * R.length := by
  unfold joinBlock
  by_cases hL : L = []
  · simp [hL]
  · by_cases hR : R = []
    · simp [hR]
    · simp only [hL, hR, ne_eq, not_false_eq_true, and_self, if_true]
      clear hL
      induction L with
      | nil => simp
      | cons l L ih => simp [List.flatMap_cons, ih, Nat.succ_mul, Nat.add_comm]

theorem sum_map_ite_eq_sum_filter (c : JSON → Bool) (f : JSON → Nat) (l : List JSON) :
    (l.map (fun k => if c k = true then f k else 0)).sum = ((l.filter c).map f).sum := by
  induction l with
  | nil => simp
  | cons a l ih =>
    by_cases h : c a = true
    · simp [h, ih]
    · simp [h, ih]

/-- C11: for every visiting order of the key union, visiting a key that has a bucket in both
partitions adds exactly `|L| * |R|` pairs to the inner-join output, visiting any other key
adds nothing, and the length of the inner-join output is the sum of `|L| * |R|` over the
keys common to both partitions, each counted once. -/
theorem inner_join_size (order : List JSON) (p : JoinParams)
    (h : IsRange (joinKeys p) order) :
    (∀ j k, k ∈ mapKeys (leftByKey p) → k ∈ mapKeys (rightByKey p) →
      (joinStep (leftByKey p) (rightByKey p) true false false j k).length =
        j.length + (bucketOf (leftByKey p) k).length * (bucketOf (rightByKey p) k).length) ∧
    (∀ j k, ¬ (k ∈ mapKeys (leftByKey p) ∧ k ∈ mapKeys (rightByKey p)) →
      joinStep (leftByKey p) (rightByKey p) true false false j k = j) ∧
    ((commonKeys order p).Nodup ∧
      ∀ k, k ∈ commonKeys order p ↔ k ∈ mapKeys (leftByKey p) ∧ k ∈ mapKeys (rightByKey p)) ∧
    (PerformJoin order p true false false).length =
      ((commonKeys order p).map (fun k =>
        (bucketOf (leftByKey p) k).length * (bucketOf (rightByKey p) k).length)).sum := by
  have hr := IsRange_joinKeys p order h
  refine ⟨fun j k _ _ => ?_, fun j k hk => ?_, ⟨hr.1.filter _, fun k => ?_⟩, ?_⟩
  · rw [joinStep_eq, List.length_append, length_joinBlock_inner]
  · rw [joinStep_eq]
    have : joinBlock true false false (bucketOf (leftByKey p) k) (bucketOf (rightByKey p) k)
        = [] := by
      by_cases h1 : k ∈ mapKeys (leftByKey p)
      · have h2 : k ∉ mapKeys (rightByKey p) := fun h2 => hk ⟨h1, h2⟩
        simp [joinBlock, bucketOf_eq_nil_of_not_mem _ _ h2]
      · simp [joinBlock, bucketOf_eq_nil_of_not_mem _ _ h1]
    rw [this, List.append_nil]
  · simp only [commonKeys, List.mem_filter, Bool.and_eq_true, decide_eq_true_eq, hr.2]
    tauto
  · rw [PerformJoin, joinLoop_eq, List.length_flatMap, commonKeys,
      ← sum_map_ite_eq_sum_filter]
    congr 1
    apply List.map_congr_left
    intro k _
    simp only [Function.comp, length_joinBlock_inner, Bool.and_eq_true, decide_eq_true_eq]
    split
    · rfl
    · rename_i hk
      by_cases h1 : k ∈ mapKeys (leftByKey p)
      · have h2 : k ∉ mapKeys (rightByKey p) := fun h2 => hk ⟨h1, h2⟩
        simp [bucketOf_eq_nil_of_not_mem _ _ h2]
      · simp [bucketOf_eq_nil_of_not_mem _ _ h1]

theorem inner_join_size_witness :
    IsRange (joinKeys multiStreams) [.num 3, .num 1, .num 2] ∧
    commonKeys [.num 3, .num 1, .num 2] multiStreams = [.num 1] ∧
    (PerformJoin [.num 3, .num 1, .num 2] multiStreams true false false).length = 2 * 2 :=
  ⟨by unfold IsRange; decide, by decide,
    (inner_join_size [.num 3, .num 1, .num 2] multiStreams
      (by unfold IsRange; decide)).2.2.2.trans (by decide)⟩

/-- C12 (as stated, refuted): with the identity key on both sides, left stream `[null]`
and an empty right stream, the symmetric difference emits one pair, and both components of
that pair are Go `nil`: the left one is the record `null`, the right one the absent marker. -/
theorem symmetric_difference_null_pair :
    IsRange (joinKeys nullAlone) (firstSeen nullAlone) ∧
    PerformJoin (firstSeen nullAlone) nullAlone false true true =
      [JoinedPair.mk .null .null] ∧
    (∃ jp ∈ PerformJoin (firstSeen nullAlone) nullAlone false true true,
      jp.Left = .null ∧ jp.Right = .null) :=
  ⟨List.Perm.refl _, by decide, by decide⟩

/-- C14 (as stated, refuted): with the identity key, the full outer join of left `[null]`
with an empty right stream and with right `[null]` give the same output: the pair emitted
for the unmatched `null` equals the pair emitted when it is matched with the right record
`null`. -/
theorem absent_marker_is_null :
    IsRange (joinKeys nullAlone) (firstSeen nullAlone) ∧
    IsRange (joinKeys nullBoth) (firstSeen nullBoth) ∧
    PerformJoin (firstSeen nullAlone) nullAlone true true true = [JoinedPair.mk .null .null] ∧
    PerformJoin (firstSeen nullBoth) nullBoth true true true = [JoinedPair.mk .null .null] ∧
    PerformJoin (firstSeen nullAlone) nullAlone true true true =
      PerformJoin (firstSeen nullBoth) nullBoth true true true :=
  ⟨List.Perm.refl _, List.Perm.refl _, by decide, by decide, by decide⟩

/-- C14 (amended): the absent marker is Go `nil`, the value of JSON null. Visiting a key
whose left bucket is `[l]` emits `(l, nil)` when the key has no right bucket and `(l, r)`
when its right bucket is `[r]`; the two outputs are equal exactly when `r` is null, and so
differ for every right record other than null. The same holds with the sides exchanged. -/
theorem absent_marker_pairs (k l r : JSON) :
    joinStep [(k, [l])] [] true true true [] k = [JoinedPair.mk l .null] ∧
    joinStep [(k, [l])] [(k, [r])] true true true [] k = [JoinedPair.mk l r] ∧
    joinStep [] [(k, [r])] true true true [] k = [JoinedPair.mk .null r] ∧
    (joinStep [(k, [l])] [] true true true [] k =
      joinStep [(k, [l])] [(k, [r])] true true true [] k ↔ r = .null) ∧
    (joinStep [] [(k, [r])] true true true [] k =
      joinStep [(k, [l])] [(k, [r])] true true true [] k ↔ l = .null) := by
  have h1 : joinStep [(k, [l])] [] true true true [] k = [JoinedPair.mk l .null] := by
    simp [joinStep_eq, bucketOf, mapGet, joinBlock]
  have h2 : joinStep [(k, [l])] [(k, [r])] true true true [] k = [JoinedPair.mk l r] := by
    simp [joinStep_eq, bucketOf, mapGet, joinBlock]
  have h3 : joinStep [] [(k, [r])] true true true [] k = [JoinedPair.mk .null r] := by
    simp [joinStep_eq, bucketOf, mapGet, joinBlock]
  refine ⟨h1, h2, h3, ?_, ?_⟩
  · rw [h1, h2]
    simp only [List.cons.injEq, JoinedPair.mk.injEq, true_and, and_true]
    exact eq_comm
  · rw [h3, h2]
    simp only [List.cons.injEq, JoinedPair.mk.injEq, true_and, and_true]
    exact eq_comm

/-! ## The null bucket and scalar keys -/

theorem getLoop_fail_null (path : List String) (v : JSON)
    (h : (getLoop path v).1 = false) : (getLoop path v).2 = .null := by
  induction path generalizing v with
  | nil => cases v <;> simp_all [getLoop, terminalComponent]
  | cons p ps ih =>
    rw [getLoop_cons] at h ⊢
    cases v with
    | obj fs =>
      simp only at h ⊢
      cases hc : mapGet fs p with
      | none => rfl
      | some c =>
        rw [hc] at h
        exact ih c h
    | _ => rfl

theorem getLoop_scalar (path : List String) (v : JSON) :
    ((getLoop path v).2).isScalar = true := by
  induction path generalizing v with
  | nil => cases v <;> rfl
  | cons p ps ih =>
    rw [getLoop_cons]
    cases v with
    | obj fs =>
      simp only
      cases hc : mapGet fs p with
      | none => rfl
      | some c => exact ih c
    | _ => rfl

/-- C15: the bucket under the null key in `PartitionByKey(k.Value, Filter(k.Exists, s))` is
the subsequence of the records of `s` on which `k.Get` returns `(true, null)`; a record on
which the key path does not resolve has `k.Value` null and is in no bucket. -/
theorem null_bucket (k : Key) (s : List JSON) :
    bucketOf (PartitionByKey k.Value (Filter k.Exists s)) .null =
      s.filter (fun x => decide (k.Get x = (true, .null))) ∧
    (∀ x, k.Exists x = false →
      k.Value x = .null ∧
      ∀ kk, x ∉ bucketOf (PartitionByKey k.Value (Filter k.Exists s)) kk) := by
  constructor
  · rw [bucketOf_PartitionByKey, Filter_eq_filter, List.filter_filter]
    apply List.filter_congr
    intro x _
    rw [Bool.eq_iff_iff]
    simp only [Key.Value, Key.Exists, Bool.and_eq_true, decide_eq_true_eq, Prod.ext_iff]
    tauto
  · intro x hx
    refine ⟨getLoop_fail_null k.Path x hx, fun kk hm => ?_⟩
    rw [bucketOf_PartitionByKey, Filter_eq_filter] at hm
    simp only [List.mem_filter] at hm
    rw [hx] at hm
    exact absurd hm.1.2 (by decide)

theorem KeyFromString_ok (e : String) : ∃ k, KeyFromString e = .ok k := by
  unfold KeyFromString
  split
  · exact ⟨_, rfl⟩
  · exact ⟨_, rfl⟩

/-- C16: `getKeyOpts` succeeds exactly when `using` is given without `left-key` and
`right-key`, or `using` is not given and both `left-key` and `right-key` are; with `using`
both keys are `KeyFromString(using)`, otherwise they are `KeyFromString(left-key)` and
`KeyFromString(right-key)`; every other combination is an error without keys. -/
theorem getKeyOpts_cases (l r u : String) :
    ((u ≠ "" ∧ l = "" ∧ r = "") →
      ∃ k, KeyFromString u = .ok k ∧ getKeyOpts l r u = .ok (k, k)) ∧
    ((u = "" ∧ l ≠ "" ∧ r ≠ "") →
      ∃ kl kr, KeyFromString l = .ok kl ∧ KeyFromString r = .ok kr ∧
        getKeyOpts l r u = .ok (kl, kr)) ∧
    (¬ (u ≠ "" ∧ l = "" ∧ r = "") → ¬ (u = "" ∧ l ≠ "" ∧ r ≠ "") →
      ∃ msg, getKeyOpts l r u = .error msg) ∧
    ((∃ ks, getKeyOpts l r u = .ok ks) ↔
      ((u ≠ "" ∧ l = "" ∧ r = "") ∨ (u = "" ∧ l ≠ "" ∧ r ≠ ""))) := by
  have hu : (u ≠ "" ∧ l = "" ∧ r = "") →
      ∃ k, KeyFromString u = .ok k ∧ getKeyOpts l r u = .ok (k, k) := by
    rintro ⟨h1, h2, h3⟩
    obtain ⟨k, hk⟩ := KeyFromString_ok u
    exact ⟨k, hk, by simp [getKeyOpts, h1, h2, h3, hk]⟩
  have hlr : (u = "" ∧ l ≠ "" ∧ r ≠ "") →
      ∃ kl kr, KeyFromString l = .ok kl ∧ KeyFromString r = .ok kr ∧
        getKeyOpts l r u = .ok (kl, kr) := by
    rintro ⟨h1, h2, h3⟩
    obtain ⟨kl, hkl⟩ := KeyFromString_ok l
    obtain ⟨kr, hkr⟩ := KeyFromString_ok r
    exact ⟨kl, kr, hkl, hkr, by simp [getKeyOpts, h1, h2, h3, hkl, hkr]⟩
  have herr : ¬ (u ≠ "" ∧ l = "" ∧ r = "") → ¬ (u = "" ∧ l ≠ "" ∧ r ≠ "") →
      ∃ msg, getKeyOpts l r u = .error msg := by
    intro h1 h2
    by_cases hu0 : u = ""
    · by_cases hl0 : l = ""
      · by_cases hr0 : r = ""
        · exact ⟨_, by simp [getKeyOpts, hu0, hl0, hr0]; rfl⟩
        · exact ⟨_, by simp [getKeyOpts, hu0, hl0, hr0]; rfl⟩
      · by_cases hr0 : r = ""
        · exact ⟨_, by simp [getKeyOpts, hu0, hl0, hr0]; rfl⟩
        · exact absurd ⟨hu0, hl0, hr0⟩ h2
    · by_cases hlr0 : l = "" ∧ r = ""
      · exact absurd ⟨hu0, hlr0.1, hlr0.2⟩ h1
      · have : l ≠ "" ∨ r ≠ "" := by
          by_cases hl0 : l = ""
          · exact Or.inr (fun hr0 => hlr0 ⟨hl0, hr0⟩)
          · exact Or.inl hl0
        exact ⟨_, by simp only [getKeyOpts, hu0, false_and, if_false, ne_eq, not_false_eq_true,
          if_true, this]; rfl⟩
  refine ⟨hu, hlr, herr, ?_⟩
  constructor
  · rintro ⟨ks, hks⟩
    by_contra hc
    rw [not_or] at hc
    obtain ⟨msg, hm⟩ := herr hc.1 hc.2
    rw [hm] at hks
    cases hks
  · rintro (h | h)
    · obtain ⟨k, _, hk⟩ := hu h
      exact ⟨_, hk⟩
    · obtain ⟨kl, kr, _, _, hk⟩ := hlr h
      exact ⟨_, hk⟩

/-- C17: `Key.Value` returns null, a boolean, a number or a string for every key path and
every document, so every key of the left partition, of the right partition (keyed with the
left key path) and of the key union of `PerformJoin` is null or a scalar, the values Go can
use as map keys. -/
theorem keys_are_scalars :
    (∀ (k : Key) (v : JSON), (k.Value v).isScalar = true) ∧
    (∀ (p : JoinParams) (kk : JSON),
      (kk ∈ mapKeys (leftByKey p) ∨ kk ∈ mapKeys (rightByKey p) ∨ kk ∈ mapKeys (joinKeys p)) →
      kk.isScalar = true) := by
  have hv : ∀ (k : Key) (v : JSON), (k.Value v).isScalar = true :=
    fun k v => getLoop_scalar k.Path v
  have hpart : ∀ (k : Key) (s : List JSON) (kk : JSON),
      kk ∈ mapKeys (PartitionByKey k.Value s) → kk.isScalar = true := by
    intro k s kk hm
    obtain ⟨x, _, hx⟩ := (mem_mapKeys_PartitionByKey _ _ _).1 hm
    rw [← hx]
    exact hv k x
  refine ⟨hv, fun p kk h => ?_⟩
  rcases h with h | h | h
  · exact hpart _ _ _ h
  · exact hpart _ _ _ h
  · rcases ((UnionKeys_keys _ _).2 kk).1 h with h | h
    · exact hpart _ _ _ h
    · exact hpart _ _ _ h

/-! ## Visiting order, the flags and the two sides -/

theorem PerformJoin_perm_order (o1 o2 : List JSON) (p : JoinParams) (i lo ro : Bool)
    (h : List.Perm o1 o2) :
    List.Perm (PerformJoin o1 p i lo ro) (PerformJoin o2 p i lo ro) := by
  simp only [PerformJoin, joinLoop_eq]
  exact List.Perm.flatMap_right _ h

theorem IsRange_perm {K V : Type} (m : List (K × V)) (o1 o2 : List K)
    (h1 : IsRange m o1) (h2 : IsRange m o2) : List.Perm o1 o2 :=
  List.Perm.trans h1 (List.Perm.symm h2)

theorem joinBlock_split (m lo ro : Bool) (L R : List JSON) :
    joinBlock m lo ro L R =
      joinBlock m false false L R ++ joinBlock false lo false L R ++
        joinBlock false false ro L R := by
  rcases L with _ | ⟨l, L⟩ <;> rcases R with _ | ⟨r, R⟩ <;>
    cases m <;> cases lo <;> cases ro <;> simp [joinBlock]

theorem PerformJoin_flags_perm (o : List JSON) (p : JoinParams) (m lo ro : Bool) :
    List.Perm (PerformJoin o p m lo ro)
      (PerformJoin o p m false false ++ PerformJoin o p false lo false ++
        PerformJoin o p false false ro) := by
  simp only [PerformJoin, joinLoop_eq]
  have h1 := List.flatMap_append_perm o
    (fun k => joinBlock m false false (bucketOf (leftByKey p) k) (bucketOf (rightByKey p) k))
    (fun k => joinBlock false lo false (bucketOf (leftByKey p) k) (bucketOf (rightByKey p) k))
  have h2 := List.flatMap_append_perm o
    (fun k => joinBlock m false false (bucketOf (leftByKey p) k) (bucketOf (rightByKey p) k)
      ++ joinBlock false lo false (bucketOf (leftByKey p) k) (bucketOf (rightByKey p) k))
    (fun k => joinBlock false false ro (bucketOf (leftByKey p) k) (bucketOf (rightByKey p) k))
  have h3 : (o.flatMap fun k =>
      joinBlock m lo ro (bucketOf (leftByKey p) k) (bucketOf (rightByKey p) k)) =
      o.flatMap fun k =>
        (joinBlock m false false (bucketOf (leftByKey p) k) (bucketOf (rightByKey p) k)
          ++ joinBlock false lo false (bucketOf (leftByKey p) k) (bucketOf (rightByKey p) k))
          ++ joinBlock false false ro (bucketOf (leftByKey p) k) (bucketOf (rightByKey p) k) := by
    congr 1
    funext k
    exact joinBlock_split m lo ro _ _
  rw [h3]
  exact List.Perm.trans (List.Perm.symm h2) (List.Perm.append_right _ (List.Perm.symm h1))

theorem PerformJoin_no_flags (o : List JSON) (p : JoinParams) :
    PerformJoin o p false false false = [] := by
  simp only [PerformJoin, joinLoop_eq, List.flatMap_eq_nil_iff]
  intro k _
  simp [joinBlock]

/-- C19: the three flags act independently and additively. For all visiting orders of the
key union, the output with flags `(m, lo, ro)` is a permutation of the outputs with
`(m, false, false)`, `(false, lo, false)` and `(false, false, ro)` put together, the output
with no flag is empty, and so left outer is inner plus left-only, right outer is inner plus
right-only and full outer is inner plus symmetric difference, as multisets of pairs. -/
theorem flags_additive (o o1 o2 o3 : List JSON) (p : JoinParams) (m lo ro : Bool)
    (h : IsRange (joinKeys p) o) (h1 : IsRange (joinKeys p) o1)
    (h2 : IsRange (joinKeys p) o2) (h3 : IsRange (joinKeys p) o3) :
    List.Perm (PerformJoin o p m lo ro)
      (PerformJoin o1 p m false false ++ PerformJoin o2 p false lo false ++
        PerformJoin o3 p false false ro) ∧
    PerformJoin o p false false false = [] ∧
    List.Perm (PerformJoin o p true true false)
      (PerformJoin o1 p true false false ++ PerformJoin o2 p false true false) ∧
    List.Perm (PerformJoin o p true false true)
      (PerformJoin o1 p true false false ++ PerformJoin o3 p false false true) ∧
    List.Perm (PerformJoin o p true true true)
      (PerformJoin o1 p true false false ++ PerformJoin o2 p false true true) := by
  have hg : ∀ a b c : Bool, List.Perm (PerformJoin o p a b c)
      (PerformJoin o1 p a false false ++ PerformJoin o2 p false b false ++
        PerformJoin o3 p false false c) := fun a b c =>
    List.Perm.trans (PerformJoin_flags_perm o p a b c)
      (List.Perm.append
        (List.Perm.append
          (PerformJoin_perm_order _ _ p _ _ _ (IsRange_perm _ _ _ h h1))
          (PerformJoin_perm_order _ _ p _ _ _ (IsRange_perm _ _ _ h h2)))
        (PerformJoin_perm_order _ _ p _ _ _ (IsRange_perm _ _ _ h h3)))
  refine ⟨hg m lo ro, PerformJoin_no_flags o p, ?_, ?_, ?_⟩
  · have := hg true true false
    rwa [PerformJoin_no_flags o3 p, List.append_nil] at this
  · have := hg true false true
    rwa [PerformJoin_no_flags o2 p, List.append_nil] at this
  · refine List.Perm.trans (hg true true true) ?_
    rw [List.append_assoc]
    refine List.Perm.append_left _ ?_
    have h4 := List.Perm.trans (PerformJoin_flags_perm o2 p false true true)
      (List.Perm.append_left _
        (PerformJoin_perm_order _ _ p false false true (IsRange_perm _ _ _ h2 h3)))
    rw [PerformJoin_no_flags o2 p, List.nil_append] at h4
    exact List.Perm.symm h4

theorem flags_additive_witness :
    IsRange (joinKeys multiStreams) [.num 3, .num 1, .num 2] ∧
    IsRange (joinKeys multiStreams) [.num 1, .num 2, .num 3] ∧
    IsRange (joinKeys multiStreams) [.num 2, .num 3, .num 1] ∧
    IsRange (joinKeys multiStreams) [.num 3, .num 2, .num 1] ∧
    List.Perm (PerformJoin [.num 3, .num 1, .num 2] multiStreams true true true)
      (PerformJoin [.num 1, .num 2, .num 3] multiStreams true false false ++
        PerformJoin [.num 2, .num 3, .num 1] multiStreams false true false ++
        PerformJoin [.num 3, .num 2, .num 1] multiStreams false false true) :=
  ⟨by unfold IsRange; decide, by unfold IsRange; decide, by unfold IsRange; decide,
    by unfold IsRange; decide,
    (flags_additive [.num 3, .num 1, .num 2] [.num 1, .num 2, .num 3]
      [.num 2, .num 3, .num 1] [.num 3, .num 2, .num 1] multiStreams true true true
      (by unfold IsRange; decide) (by unfold IsRange; decide) (by unfold IsRange; decide)
      (by unfold IsRange; decide)).1⟩

theorem flatMap_singleton_eq_map {β γ : Type} (g : β → γ) (R : List β) :
    R.flatMap (fun r => [g r]) = R.map g := by
  induction R with
  | nil => rfl
  | cons r R ih => simp [List.flatMap_cons, ih]

theorem cross_perm {α β γ : Type} (f : α → β → γ) (L : List α) (R : List β) :
    List.Perm (R.flatMap (fun r => L.map (fun l => f l r)))
      (L.flatMap (fun l => R.map (fun r => f l r))) := by
  induction L with
  | nil => simp
  | cons l L ih =>
    have h1 := List.flatMap_append_perm R (fun r => [f l r]) (fun r => L.map (fun l => f l r))
    rw [flatMap_singleton_eq_map (fun r => f l r) R] at h1
    simp only [List.map_cons, List.flatMap_cons]
    exact List.Perm.trans (List.Perm.symm h1) (List.Perm.append_left _ ih)

theorem joinBlock_swap (m lo ro : Bool) (L R : List JSON) :
    List.Perm ((joinBlock m ro lo R L).map JoinedPair.swap) (joinBlock m lo ro L R) := by
  by_cases hL : L = []
  · subst hL
    by_cases hR : R = []
    · subst hR; simp [joinBlock]
    · cases ro
      · simp [joinBlock, hR]
      · simp [joinBlock, hR]
        exact List.Perm.refl _
  · by_cases hR : R = []
    · subst hR
      cases lo
      · simp [joinBlock, hL]
      · simp [joinBlock, hL]
        exact List.Perm.refl _
    · cases m
      · simp [joinBlock, hL, hR]
      · simp only [joinBlock, hL, hR, ne_eq, not_false_eq_true, and_self, if_true,
          List.map_flatMap, List.map_map]
        exact cross_perm (fun l r => JoinedPair.mk l r) L R

theorem joinKeys_sharedKey_perm (k : Key) (A B : List JSON) :
    List.Perm (mapKeys (joinKeys (sharedKey k B A))) (mapKeys (joinKeys (sharedKey k A B))) := by
  have h1 := UnionKeys_keys (leftByKey (sharedKey k B A)) (rightByKey (sharedKey k B A))
  have h2 := UnionKeys_keys (leftByKey (sharedKey k A B)) (rightByKey (sharedKey k A B))
  refine (List.perm_ext_iff_of_nodup h1.1 h2.1).2 (fun a => ?_)
  rw [h1.2, h2.2]
  exact Or.comm

theorem PerformJoin_swap_sides (k : Key) (A B : List JSON) (m lo ro : Bool) (o o' : List JSON)
    (h : IsRange (joinKeys (sharedKey k A B)) o)
    (h' : IsRange (joinKeys (sharedKey k B A)) o') :
    List.Perm ((PerformJoin o' (sharedKey k B A) m ro lo).map JoinedPair.swap)
      (PerformJoin o (sharedKey k A B) m lo ro) := by
  have ho : List.Perm o' o :=
    List.Perm.trans h' (List.Perm.trans (joinKeys_sharedKey_perm k A B) (List.Perm.symm h))
  simp only [PerformJoin, joinLoop_eq, List.map_flatMap]
  refine List.Perm.trans (List.Perm.flatMap_right _ ho) ?_
  apply List.Perm.flatMap_left
  intro kk _
  exact joinBlock_swap m lo ro _ _

/-- C20: with one shared key path, for all visiting orders, exchanging the two components of
every pair of the join of `(B, A)` with flags `(m, ro, lo)` gives a permutation of the join
of `(A, B)` with flags `(m, lo, ro)`; in particular the right outer join of `(A, B)` is the
mirrored left outer join of `(B, A)`. -/
theorem join_symmetric (k : Key) (A B : List JSON) (m lo ro : Bool) (o o' : List JSON)
    (h : IsRange (joinKeys (sharedKey k A B)) o)
    (h' : IsRange (joinKeys (sharedKey k B A)) o') :
    List.Perm ((PerformJoin o' (sharedKey k B A) m ro lo).map JoinedPair.swap)
      (PerformJoin o (sharedKey k A B) m lo ro) ∧
    List.Perm ((PerformJoin o' (sharedKey k B A) true true false).map JoinedPair.swap)
      (PerformJoin o (sharedKey k A B) true false true) :=
  ⟨PerformJoin_swap_sides k A B m lo ro o o' h h',
    PerformJoin_swap_sides k A B true false true o o' h h'⟩

theorem join_symmetric_witness :
    IsRange (joinKeys (sharedKey { Path := ["id"] } multiStreams.Left multiStreams.Right))
      [.num 3, .num 1, .num 2] ∧
    IsRange (joinKeys (sharedKey { Path := ["id"] } multiStreams.Right multiStreams.Left))
      [.num 2, .num 1, .num 3] ∧
    List.Perm
      ((PerformJoin [.num 2, .num 1, .num 3]
        (sharedKey { Path := ["id"] } multiStreams.Right multiStreams.Left)
        true true false).map JoinedPair.swap)
      (PerformJoin [.num 3, .num 1, .num 2]
        (sharedKey { Path := ["id"] } multiStreams.Left multiStreams.Right)
        true false true) :=
  ⟨by unfold IsRange; decide, by unfold IsRange; decide,
    (join_symmetric { Path := ["id"] } multiStreams.Left multiStreams.Right true false true
      [.num 3, .num 1, .num 2] [.num 2, .num 1, .num 3]
      (by unfold IsRange; decide) (by unfold IsRange; decide)).1⟩

/-! ## Subtraction and the worked scenario -/

theorem map_Left_joinBlock_leftOnly (L R : List JSON) :
    (joinBlock false true false L R).map (fun x => x.Left) = if R = [] then L else [] := by
  by_cases hL : L = []
  · subst hL; by_cases hR : R = [] <;> simp [joinBlock, hR]
  · by_cases hR : R = []
    · subst hR
      have hb : joinBlock false true false L [] = L.map (fun l => JoinedPair.mk l .null) := by
        simp [joinBlock, hL]
      rw [hb, List.map_map, if_pos rfl]
      exact List.map_id L
    · simp [joinBlock, hL, hR]

theorem filter_flatMap_key (key : JSON → JSON) (f : JSON → List JSON) (order : List JSON)
    (k0 : JSON) (hn : order.Nodup) (hf : ∀ k x, x ∈ f k → key x = k) :
    (order.flatMap f).filter (fun x => decide (key x = k0)) =
      if k0 ∈ order then f k0 else [] := by
  induction order with
  | nil => simp
  | cons a l ih =>
    have hn' := List.nodup_cons.1 hn
    rw [List.flatMap_cons, List.filter_append, ih hn'.2]
    by_cases ha : a = k0
    · subst ha
      have h1 : (f a).filter (fun x => decide (key x = a)) = f a :=
        List.filter_eq_self.2 (fun x hx => by simp [hf a x hx])
      simp [h1, hn'.1]
    · have h1 : (f a).filter (fun x => decide (key x = k0)) = [] :=
        List.filter_eq_nil_iff.2 (fun x hx => by simp [hf a x hx, ha])
      have h2 : (k0 ∈ a :: l) ↔ k0 ∈ l := by
        simp [List.mem_cons, Ne.symm ha]
      simp only [h1, List.nil_append, h2]

theorem actionSubtract_eq (order : List JSON) (p : JoinParams) :
    actionSubtract order p = order.flatMap (fun kk =>
      if bucketOf (rightByKey p) kk = [] then bucketOf (leftByKey p) kk else []) := by
  simp only [actionSubtract, PerformJoin, joinLoop_eq, List.map_flatMap,
    map_Left_joinBlock_leftOnly]

theorem filter_leftMinusRight (k : Key) (A B : List JSON) (k0 : JSON) :
    (leftMinusRight k A B).filter (fun x => decide (k.Value x = k0)) =
      if bucketOf (rightByKey (sharedKey k A B)) k0 = []
      then bucketOf (leftByKey (sharedKey k A B)) k0 else [] := by
  simp only [leftByKey, rightByKey, sharedKey, bucketOf_PartitionByKey, Filter_eq_filter,
    leftMinusRight, List.filter_filter]
  split
  · rename_i hR
    rw [List.filter_eq_nil_iff] at hR
    apply List.filter_congr
    intro l _
    by_cases hl : k.Value l = k0
    · have : B.any (fun r => k.Exists r && decide (k.Value r = k.Value l)) = false := by
        rw [List.any_eq_false]
        intro r hr hc
        apply hR r hr
        simpa [hl, and_comm] using hc
      simp only [this, Bool.not_false, Bool.and_true]
    · simp [hl]
  · rename_i hR
    rw [List.filter_eq_nil_iff] at hR ⊢
    simp only [not_forall] at hR
    obtain ⟨r, hr, hc⟩ := hR
    intro l _ hl
    simp only [Bool.and_eq_true, decide_eq_true_eq, Bool.not_eq_true', List.any_eq_false,
      not_and, Bool.not_eq_true] at hl hc
    have hc' : k.Value r = k0 ∧ k.Exists r = true := by
      simpa [Bool.and_eq_true, decide_eq_true_eq] using hc
    have := hl.2.2 r hr
    rw [hc'.2, hl.1, hc'.1] at this
    simp at this

theorem filter_actionSubtract (k : Key) (A B : List JSON) (order : List JSON) (k0 : JSON)
    (h : IsRange (joinKeys (sharedKey k A B)) order) :
    (actionSubtract order (sharedKey k A B)).filter (fun x => decide (k.Value x = k0)) =
      (leftMinusRight k A B).filter (fun x => decide (k.Value x = k0)) := by
  have hr := IsRange_joinKeys _ order h
  rw [actionSubtract_eq, filter_leftMinusRight,
    filter_flatMap_key k.Value _ order k0 hr.1]
  · by_cases hk : k0 ∈ order
    · simp [hk]
    · have hL : bucketOf (leftByKey (sharedKey k A B)) k0 = [] :=
        bucketOf_eq_nil_of_not_mem _ _ (fun hm => hk ((hr.2 k0).2 (Or.inl hm)))
      simp [hk, hL]
  · intro kk x hx
    split at hx
    · exact (mem_bucketOf_leftByKey _ kk x hx).2.2
    · simp at hx

/-- C13: with one shared key path `k` and for every visiting order of the key union, the
documents printed by subtract are, as a multiset, the left records with a resolvable key for
which no right record with a resolvable key has the same key value, and the records that
share a key value come out in their order in the left stream. -/
theorem subtract_is_left_minus_right (k : Key) (A B : List JSON) (order : List JSON)
    (h : IsRange (joinKeys (sharedKey k A B)) order) :
    List.Perm (actionSubtract order (sharedKey k A B)) (leftMinusRight k A B) ∧
    (∀ kk, (actionSubtract order (sharedKey k A B)).filter (fun x => decide (k.Value x = kk)) =
      (leftMinusRight k A B).filter (fun x => decide (k.Value x = kk))) := by
  refine ⟨?_, fun kk => filter_actionSubtract k A B order kk h⟩
  rw [List.perm_iff_count]
  intro x
  have h1 := filter_actionSubtract k A B order (k.Value x) h
  have h2 : ∀ l : List JSON,
      List.count x (l.filter (fun y => decide (k.Value y = k.Value x))) = List.count x l :=
    fun l => List.count_filter (by simp)
  rw [← h2 (actionSubtract order (sharedKey k A B)), h1, h2]

theorem subtract_is_left_minus_right_witness :
    IsRange (joinKeys (sharedKey { Path := ["id"] } multiStreams.Left multiStreams.Right))
      [.num 3, .num 1, .num 2] ∧
    actionSubtract [.num 3, .num 1, .num 2]
      (sharedKey { Path := ["id"] } multiStreams.Left multiStreams.Right) = [idRecord 2 "b"] :=
  ⟨by unfold IsRange; decide,
    List.perm_singleton.1
      ((subtract_is_left_minus_right { Path := ["id"] } multiStreams.Left multiStreams.Right
        [.num 3, .num 1, .num 2] (by unfold IsRange; decide)).1.trans
        (List.Perm.of_eq (by decide)))⟩

theorem PerformJoin_perm_firstSeen (order : List JSON) (p : JoinParams) (i lo ro : Bool)
    (h : IsRange (joinKeys p) order) :
    List.Perm (PerformJoin order p i lo ro) (PerformJoin (firstSeen p) p i lo ro) :=
  PerformJoin_perm_order _ _ p i lo ro h

/-- C18: in the scenario left = `[{"id":1,"v":"a"},{"id":2,"v":"b"}]`,
right = `[{"id":2,"v":"x"},{"id":3,"v":"y"}]`, key `.id` on both sides, for every visiting
order: the inner join is the single pair (id 2, id 2); the left outer join has the pair
(id 1, absent) and is that pair plus the inner pair; the right outer join has the pair
(absent, id 3) and is that pair plus the inner pair; the full outer join is the three pairs
(id 1, absent), (id 2, id 2), (absent, id 3) in some order; the symmetric difference is the
two pairs (id 1, absent), (absent, id 3) in some order; subtract prints only the left record
with id 1. -/
theorem scenario_outputs (order : List JSON) (h : IsRange (joinKeys scenario) order) :
    KeyFromString ".id" = .ok scenario.LeftKey ∧
    KeyFromString ".id" = .ok scenario.RightKey ∧
    PerformJoin order scenario true false false =
      [JoinedPair.mk (idRecord 2 "b") (idRecord 2 "x")] ∧
    JoinedPair.mk (idRecord 1 "a") .null ∈ PerformJoin order scenario true true false ∧
    List.Perm (PerformJoin order scenario true true false)
      [JoinedPair.mk (idRecord 1 "a") .null,
       JoinedPair.mk (idRecord 2 "b") (idRecord 2 "x")] ∧
    JoinedPair.mk .null (idRecord 3 "y") ∈ PerformJoin order scenario true false true ∧
    List.Perm (PerformJoin order scenario true false true)
      [JoinedPair.mk (idRecord 2 "b") (idRecord 2 "x"),
       JoinedPair.mk .null (idRecord 3 "y")] ∧
    List.Perm (PerformJoin order scenario true true true)
      [JoinedPair.mk (idRecord 1 "a") .null,
       JoinedPair.mk (idRecord 2 "b") (idRecord 2 "x"),
       JoinedPair.mk .null (idRecord 3 "y")] ∧
    List.Perm (PerformJoin order scenario false true true)
      [JoinedPair.mk (idRecord 1 "a") .null,
       JoinedPair.mk .null (idRecord 3 "y")] ∧
    actionSubtract order scenario = [idRecord 1 "a"] := by
  have hp := fun i lo ro => PerformJoin_perm_firstSeen order scenario i lo ro h
  have hlo : List.Perm (PerformJoin order scenario true true false)
      [JoinedPair.mk (idRecord 1 "a") .null,
       JoinedPair.mk (idRecord 2 "b") (idRecord 2 "x")] :=
    (hp true true false).trans (List.Perm.of_eq (by decide))
  have hro : List.Perm (PerformJoin order scenario true false true)
      [JoinedPair.mk (idRecord 2 "b") (idRecord 2 "x"),
       JoinedPair.mk .null (idRecord 3 "y")] :=
    (hp true false true).trans (List.Perm.of_eq (by decide))
  refine ⟨rfl, rfl, ?_, ?_, hlo, ?_, hro, ?_, ?_, ?_⟩
  · exact List.perm_singleton.1 ((hp true false false).trans (List.Perm.of_eq (by decide)))
  · exact (List.Perm.mem_iff hlo).2 (by simp)
  · exact (List.Perm.mem_iff hro).2 (by simp)
  · exact (hp true true true).trans (List.Perm.of_eq (by decide))
  · exact (hp false true true).trans (List.Perm.of_eq (by decide))
  · have hs : List.Perm (actionSubtract order scenario)
        (actionSubtract (firstSeen scenario) scenario) :=
      List.Perm.map _ (hp false true false)
    exact List.perm_singleton.1 (hs.trans (List.Perm.of_eq (by decide)))

theorem scenario_outputs_witness :
    IsRange (joinKeys scenario) [.num 3, .num 1, .num 2] ∧
    PerformJoin [.num 3, .num 1, .num 2] scenario true false false =
      [JoinedPair.mk (idRecord 2 "b") (idRecord 2 "x")] ∧
    actionSubtract [.num 3, .num 1, .num 2] scenario = [idRecord 1 "a"] :=
  ⟨by unfold IsRange; decide,
    (scenario_outputs [.num 3, .num 1, .num 2] (by unfold IsRange; decide)).2.2.1,
    (scenario_outputs [.num 3, .num 1, .num 2] (by unfold IsRange; decide)).2.2.2.2.2.2.2.2.2⟩

/-! ## Key expressions as Go strings -/

theorem acceptSecond_iff (b0 b1 : Nat) :
    acceptSecond b0 b1 = true ↔
      0xC2 ≤ b0 ∧ b0 ≤ 0xF4 ∧
      (b0 = 0xE0 → 0xA0 ≤ b1) ∧ (b0 = 0xF0 → 0x90 ≤ b1) ∧ 0x80 ≤ b1 ∧
      (b0 = 0xED → b1 ≤ 0x9F) ∧ (b0 = 0xF4 → b1 ≤ 0x8F) ∧ b1 ≤ 0xBF := by
  simp only [acceptSecond, acceptLo, acceptHi, decide_eq_true_eq]
  constructor
  · rintro ⟨h1, h2, h3, h4⟩
    split_ifs at h3 h4 <;> omega
  · intro h
    refine ⟨h.1, h.2.1, ?_, ?_⟩
    · split_ifs <;> omega
    · split_ifs <;> omega

theorem encodeRune_two (b0 b1 : Fin 256) (h0 : ¬ b0.val < 0x80) (h1 : b0.val < 0xE0)
    (ha : acceptSecond b0.val b1.val = true) :
    encodeRune (b0.val % 32 * 64 + b1.val % 64) = [b0, b1] := by
  rw [acceptSecond_iff] at ha
  rw [encodeRune, if_neg (by omega), if_pos (by omega)]
  simp only [byte, List.cons.injEq, Fin.ext_iff, and_true]
  omega

theorem encodeRune_three (b0 b1 b2 : Fin 256) (h0 : ¬ b0.val < 0xE0) (h1 : b0.val < 0xF0)
    (ha : acceptSecond b0.val b1.val = true) (hc : isCont b2.val = true) :
    encodeRune (b0.val % 16 * 4096 + b1.val % 64 * 64 + b2.val % 64) = [b0, b1, b2] := by
  rw [acceptSecond_iff] at ha
  simp only [isCont, decide_eq_true_eq] at hc
  rw [encodeRune, if_neg (by omega), if_neg (by omega), if_neg (by omega), if_pos (by omega)]
  simp only [byte, List.cons.injEq, Fin.ext_iff, and_true]
  omega

theorem encodeRune_four (b0 b1 b2 b3 : Fin 256) (h0 : ¬ b0.val < 0xF0)
    (ha : acceptSecond b0.val b1.val = true) (hc : isCont b2.val = true)
    (hd : isCont b3.val = true) :
    encodeRune (b0.val % 8 * 262144 + b1.val % 64 * 4096 + b2.val % 64 * 64 + b3.val % 64) =
      [b0, b1, b2, b3] := by
  rw [acceptSecond_iff] at ha
  simp only [isCont, decide_eq_true_eq] at hc hd
  rw [encodeRune, if_neg (by omega), if_neg (by omega), if_neg (by omega), if_neg (by omega)]
  simp only [byte, List.cons.injEq, Fin.ext_iff, and_true]
  omega

theorem encodeRune_ascii (b0 : Fin 256) (h0 : b0.val < 0x80) : encodeRune b0.val = [b0] := by
  rw [encodeRune, if_pos h0]
  simp only [byte, List.cons.injEq, Fin.ext_iff, and_true]
  omega

theorem encodeRunes_cons (r : Nat) (rs : List Nat) :
    encodeRunes (r :: rs) = encodeRune r ++ encodeRunes rs := by
  simp [encodeRunes, List.flatMap_cons]

/-- On valid UTF-8 the round trip `string([]rune(s))` returns `s`. -/
theorem encodeRunes_decodeRunes (s : GoString) (hv : ValidString s = true) :
    encodeRunes (decodeRunes s) = s := by
  induction s using decodeRunes.induct with
  | case1 => rfl
  | case2 b0 t0 h0 ih =>
    rw [ValidString.eq_def] at hv
    simp only [if_pos h0] at hv
    rw [decodeRunes.eq_def]
    simp only [if_pos h0, encodeRunes_cons, encodeRune_ascii b0 h0, ih hv]
    rfl
  | case3 b0 h0 _ =>
    rw [ValidString.eq_def] at hv
    simp [h0] at hv
  | case4 b0 h0 b1 t1 ha _ =>
    rw [ValidString.eq_def] at hv
    simp [h0, ha] at hv
  | case5 b0 h0 b1 t1 ha h1 _ ih =>
    rw [ValidString.eq_def] at hv
    simp only [if_neg h0, if_neg ha, if_pos h1] at hv
    rw [decodeRunes.eq_def]
    simp only [if_neg h0, if_neg ha, if_pos h1, encodeRunes_cons,
      encodeRune_two b0 b1 h0 h1 (by simpa using ha), ih hv]
    rfl
  | case6 b0 h0 b1 ha h1 _ =>
    rw [ValidString.eq_def] at hv
    simp [h0, ha, h1] at hv
  | case7 b0 h0 b1 ha h1 b2 t2 hc _ =>
    rw [ValidString.eq_def] at hv
    simp [h0, ha, h1, hc] at hv
  | case8 b0 h0 b1 ha h1 b2 t2 hc h2 _ ih =>
    rw [ValidString.eq_def] at hv
    simp only [if_neg h0, if_neg ha, if_neg h1, if_neg hc, if_pos h2] at hv
    rw [decodeRunes.eq_def]
    simp only [if_neg h0, if_neg ha, if_neg h1, if_neg hc, if_pos h2,
      encodeRunes_cons,
      encodeRune_three b0 b1 b2 h1 h2 (by simpa using ha) (by simpa using hc), ih hv]
    rfl
  | case9 b0 h0 b1 ha h1 b2 hc h2 _ =>
    rw [ValidString.eq_def] at hv
    simp [h0, ha, h1, hc, h2] at hv
  | case10 b0 h0 b1 ha h1 b2 hc h2 b3 t3 hd _ =>
    simp [ValidString, h0, ha, h1, hc, h2, hd] at hv
  | case11 b0 h0 b1 ha h1 b2 hc h2 b3 t3 hd _ ih =>
    rw [ValidString.eq_def] at hv
    simp only [if_neg h0, if_neg ha, if_neg h1, if_neg hc, if_neg h2,
      if_neg hd] at hv
    rw [decodeRunes.eq_def]
    simp only [if_neg h0, if_neg ha, if_neg h1, if_neg hc, if_neg h2, if_neg hd,
      encodeRunes_cons,
      encodeRune_four b0 b1 b2 b3 h2 (by simpa using ha) (by simpa using hc)
        (by simpa using hd), ih hv]
    rfl

theorem splitBytes_eq_go (sep : Fin 256) (cs cur : GoString) :
    splitBytes sep cs cur = List.splitOnP.go (· == sep) cs cur := by
  induction cs generalizing cur with
  | nil => simp [splitBytes, List.splitOnP.go]
  | cons c cs ih =>
    by_cases h : c = sep
    · simp [splitBytes, List.splitOnP.go, h, ih]
    · simp [splitBytes, List.splitOnP.go, h, ih]

theorem splitBytes_eq_splitOn (s : GoString) (sep : Fin 256) :
    splitBytes sep s [] = s.splitOn sep := by
  simp [List.splitOn, List.splitOnP, splitBytes_eq_go]

theorem decodeRunes_dot (rest : GoString) :
    decodeRunes (0x2E :: rest) = 0x2E :: decodeRunes rest := by
  have h : ((0x2E : Fin 256)).val < 0x80 := by decide
  rw [decodeRunes.eq_def]
  simp only [if_pos h]
  rfl

theorem ValidString_dot (rest : GoString) :
    ValidString (0x2E :: rest) = ValidString rest := by
  have h : ((0x2E : Fin 256)).val < 0x80 := by decide
  rw [ValidString.eq_def]
  simp only [if_pos h]

theorem KeyFromGoString_dot (rest : GoString) (h : rest ≠ []) :
    KeyFromGoString (0x2E :: rest) =
      .ok ((encodeRunes (decodeRunes rest)).splitOn 0x2E) := by
  have h1 : (0x2E :: rest : GoString) ≠ [0x2E] := by simpa using h
  simp only [KeyFromGoString, if_neg h1, decodeRunes_dot, List.drop_succ_cons, List.drop_zero,
    splitBytes_eq_splitOn]
  simp [List.isPrefixOf]

theorem KeyFromGoString_no_dot (e : GoString) (h : ([0x2E] : GoString).isPrefixOf e = false) :
    KeyFromGoString e = .ok (e.splitOn 0x2E) := by
  have h1 : e ≠ [0x2E] := by
    intro he
    rw [he] at h
    simp [List.isPrefixOf] at h
  simp only [KeyFromGoString, if_neg h1, h, splitBytes_eq_splitOn]
  simp

theorem dropLeadingDotByte_no_dot (e : GoString)
    (h : ([0x2E] : GoString).isPrefixOf e = false) : dropLeadingDotByte e = e := by
  cases e with
  | nil => rfl
  | cons b bs =>
    have hb : b ≠ 0x2E := by
      intro hb
      rw [hb] at h
      simp [List.isPrefixOf] at h
    simp [dropLeadingDotByte, hb]

/-- C5 (as stated, refuted): the expression with bytes `a`, `0xFF`, `b` is not empty and
does not begin with a dot. Parsed as it is, its path is the one segment `a 0xFF b`; parsed
with a dot in front, the conversion `string([]rune(kp)[1:])` replaces the byte `0xFF` by the
three bytes of `U+FFFD`, so the path is not the rest cut at the dots and differs from the
path of the expression without the dot. -/
theorem KeyFromGoString_invalid_utf8 :
    invalidExpr ≠ [] ∧ ([0x2E] : GoString).isPrefixOf invalidExpr = false ∧
    KeyFromGoString invalidExpr = .ok [[0x61, 0xFF, 0x62]] ∧
    KeyFromGoString (0x2E :: invalidExpr) = .ok [[0x61, 0xEF, 0xBF, 0xBD, 0x62]] ∧
    bytesByRule (0x2E :: invalidExpr) = [[0x61, 0xFF, 0x62]] ∧
    KeyFromGoString (0x2E :: invalidExpr) ≠ KeyFromGoString invalidExpr := by
  have h1 : KeyFromGoString invalidExpr = .ok [[0x61, 0xFF, 0x62]] := rfl
  have h2 : KeyFromGoString (0x2E :: invalidExpr) = .ok [[0x61, 0xEF, 0xBF, 0xBD, 0x62]] := rfl
  refine ⟨by decide, by decide, h1, h2, by decide, fun h => ?_⟩
  rw [h1, h2] at h
  exact absurd (Except.ok.inj h) (by decide)

/-- C5 (amended): for every expression that is valid UTF-8 and is not the literal `"."`,
`KeyFromString` succeeds with the path obtained by removing one leading dot (if the
expression begins with one) and cutting the rest at the dots, left to right; hence for a
non-empty valid UTF-8 expression that does not begin with a dot, putting a dot in front does
not change the parsed path. -/
theorem KeyFromGoString_path (e : GoString) (h : e ≠ [0x2E]) (hv : ValidString e = true) :
    KeyFromGoString e = .ok (bytesByRule e) ∧
    (([0x2E] : GoString).isPrefixOf e = false → e ≠ [] →
      KeyFromGoString (0x2E :: e) = KeyFromGoString e) := by
  constructor
  · by_cases hp : ([0x2E] : GoString).isPrefixOf e = false
    · rw [KeyFromGoString_no_dot e hp, bytesByRule, dropLeadingDotByte_no_dot e hp]
    · cases e with
      | nil => simp [List.isPrefixOf] at hp
      | cons b rest =>
        have hb : b = 0x2E := by
          by_contra hb
          apply hp
          simp [List.isPrefixOf, Ne.symm hb]
        subst hb
        have hr : rest ≠ [] := fun hr => h (by rw [hr])
        rw [ValidString_dot] at hv
        rw [KeyFromGoString_dot rest hr, encodeRunes_decodeRunes rest hv]
        simp [bytesByRule, dropLeadingDotByte]
  · intro hp hne
    rw [KeyFromGoString_dot e hne, encodeRunes_decodeRunes e hv, KeyFromGoString_no_dot e hp]

theorem KeyFromGoString_path_witness :
    ([0x61, 0x2E, 0xC3, 0xA9] : GoString) ≠ [0x2E] ∧
    ValidString [0x61, 0x2E, 0xC3, 0xA9] = true ∧
    KeyFromGoString [0x61, 0x2E, 0xC3, 0xA9] = .ok [[0x61], [0xC3, 0xA9]] ∧
    KeyFromGoString (0x2E :: [0x61, 0x2E, 0xC3, 0xA9]) =
      KeyFromGoString [0x61, 0x2E, 0xC3, 0xA9] :=
  ⟨by decide, by decide,
    (KeyFromGoString_path [0x61, 0x2E, 0xC3, 0xA9] (by decide) (by decide)).1.trans rfl,
    (KeyFromGoString_path [0x61, 0x2E, 0xC3, 0xA9] (by decide) (by decide)).2
      (by decide) (by decide)⟩

/-! ## `PartitionByKey` with the panic of map indexing -/

theorem PartitionByKeyChecked_foldl_none (key : JSON → JSON) (seq : List JSON) :
    seq.foldl
      (fun part x =>
        match part with
        | none => none
        | some part =>
          let ks := key x
          if ks.isScalar then
            let pk := match mapGet part ks with
              | some pk => pk
              | none => []
            some (mapSet part ks (pk ++ [x]))
          else none)
      (none : Option (List (JSON × List JSON))) = none := by
  induction seq with
  | nil => rfl
  | cons x xs ih => simpa [List.foldl] using ih

theorem PartitionByKeyChecked_foldl_some (key : JSON → JSON) (seq : List JSON)
    (m : List (JSON × List JSON)) (h : ∀ x ∈ seq, (key x).isScalar = true) :
    seq.foldl
      (fun part x =>
        match part with
        | none => none
        | some part =>
          let ks := key x
          if ks.isScalar then
            let pk := match mapGet part ks with
              | some pk => pk
              | none => []
            some (mapSet part ks (pk ++ [x]))
          else none)
      (some m) =
    some (seq.foldl
      (fun part x =>
        let ks := key x
        let pk := match mapGet part ks with
          | some pk => pk
          | none => []
        mapSet part ks (pk ++ [x]))
      m) := by
  induction seq generalizing m with
  | nil => rfl
  | cons x xs ih =>
    have hx : (key x).isScalar = true := h x (List.mem_cons_self _ _)
    have hxs : ∀ y ∈ xs, (key y).isScalar = true := fun y hy => h y (List.mem_cons_of_mem _ hy)
    simp only [List.foldl, hx, if_true]
    exact ih _ hxs

/-- With keys that are null or scalars the map indexing never panics, and the result is the
map built by the loop. -/
theorem PartitionByKeyChecked_of_scalar (key : JSON → JSON) (seq : List JSON)
    (h : ∀ x ∈ seq, (key x).isScalar = true) :
    PartitionByKeyChecked key seq = some (PartitionByKey key seq) :=
  PartitionByKeyChecked_foldl_some key seq [] h

/-- A record whose key is a sequence or a keyed mapping makes the call panic. -/
theorem PartitionByKeyChecked_of_composite (key : JSON → JSON) (seq : List JSON)
    (h : ∃ x ∈ seq, (key x).isScalar = false) :
    PartitionByKeyChecked key seq = none := by
  unfold PartitionByKeyChecked
  generalize (some [] : Option (List (JSON × List JSON))) = acc
  induction seq generalizing acc with
  | nil => simp at h
  | cons x xs ih =>
    by_cases hx : (key x).isScalar = true
    · have hxs : ∃ y ∈ xs, (key y).isScalar = false := by
        obtain ⟨y, hy, hy2⟩ := h
        rcases List.mem_cons.1 hy with e | e
        · rw [e, hx] at hy2; exact absurd hy2 (by decide)
        · exact ⟨y, e, hy2⟩
      simp only [List.foldl]
      exact ih hxs _
    · simp only [List.foldl]
      cases acc with
      | none => exact PartitionByKeyChecked_foldl_none key xs
      | some m =>
        simp only [hx]
        exact PartitionByKeyChecked_foldl_none key xs

/-- The partitions of `PerformJoin` are built without panic: its key function is
`Key.Value`, whose results are null or scalars. -/
theorem PartitionByKeyChecked_Value (k : Key) (seq : List JSON) :
    PartitionByKeyChecked k.Value seq = some (PartitionByKey k.Value seq) :=
  PartitionByKeyChecked_of_scalar k.Value seq (fun x _ => getLoop_scalar k.Path x)

/-- C8 (as stated, refuted): with the identity as key function and the records `1`, `[2]`,
the second record's key is a sequence, indexing the map with it panics and no partition is
returned, although a record with that key exists. -/
theorem PartitionByKey_panics_on_composite_key :
    PartitionByKeyChecked (fun x => x) [.num 1, .arr [.num 2]] = none ∧
    (∃ x ∈ [JSON.num 1, JSON.arr [.num 2]], (fun x : JSON => x) x = .arr [.num 2]) :=
  ⟨by decide, ⟨.arr [.num 2], by simp, rfl⟩⟩

/-- C8 (amended): for every key function whose value on each record of `s` is null or a
scalar, `PartitionByKey` returns a partition with pairwise distinct keys, in which an entry
`(kk, b)` is present exactly when `b` is non-empty and is the subsequence of `s`, in the
original order, of the records whose key is `kk`, and `kk` has an entry exactly when some
record of `s` has key `kk`. -/
theorem PartitionByKeyChecked_buckets (key : JSON → JSON) (s : List JSON)
    (h : ∀ x ∈ s, (key x).isScalar = true) :
    ∃ part, PartitionByKeyChecked key s = some part ∧
      (mapKeys part).Nodup ∧
      (∀ kk b, (kk, b) ∈ part ↔ (b ≠ [] ∧ b = s.filter (fun x => decide (key x = kk)))) ∧
      (∀ kk, kk ∈ mapKeys part ↔ ∃ x ∈ s, key x = kk) :=
  ⟨PartitionByKey key s, PartitionByKeyChecked_of_scalar key s h,
    PartitionByKey_buckets key s⟩

theorem PartitionByKeyChecked_buckets_witness :
    (∀ x ∈ multiStreams.Left, ((Key.mk ["id"]).Value x).isScalar = true) ∧
    PartitionByKeyChecked (Key.mk ["id"]).Value multiStreams.Left =
      some [(.num 1, [idRecord 1 "a", idRecord 1 "c"]), (.num 2, [idRecord 2 "b"]),
        (.null, [.str "no key"])] ∧
    ∃ part, PartitionByKeyChecked (Key.mk ["id"]).Value multiStreams.Left = some part ∧
      (mapKeys part).Nodup ∧
      (∀ kk b, (kk, b) ∈ part ↔
        (b ≠ [] ∧ b = multiStreams.Left.filter
          (fun x => decide ((Key.mk ["id"]).Value x = kk)))) ∧
      (∀ kk, kk ∈ mapKeys part ↔ ∃ x ∈ multiStreams.Left, (Key.mk ["id"]).Value x = kk) :=
  ⟨by decide, by decide,
    PartitionByKeyChecked_buckets (Key.mk ["id"]).Value multiStreams.Left (by decide)⟩

/-! ## Symmetric difference with one shared key path -/

theorem rightByKey_eq_rightByOwnKey (p : JoinParams) (hk : p.LeftKey = p.RightKey) :
    rightByKey p = rightByOwnKey p := by
  simp only [rightByKey, rightByOwnKey, hk]

/-- C12 (amended): when both sides use the same key path, for every visiting order, in the
symmetric difference visiting a key that has a bucket in both partitions emits nothing, and
every output pair is either a left record with a resolvable key next to the absent marker
`nil` or the absent marker next to a right record with a resolvable key, and the key of its
present record has no bucket in the other side's partition. -/
theorem symmetric_difference_shared_key (order : List JSON) (p : JoinParams)
    (hk : p.LeftKey = p.RightKey) :
    (∀ j k, k ∈ mapKeys (leftByKey p) → k ∈ mapKeys (rightByOwnKey p) →
      joinStep (leftByKey p) (rightByKey p) false true true j k = j) ∧
    (∀ jp ∈ PerformJoin order p false true true,
      (jp.Right = .null ∧ jp.Left ∈ p.Left ∧ p.LeftKey.Exists jp.Left = true ∧
        p.LeftKey.Value jp.Left ∉ mapKeys (rightByOwnKey p)) ∨
      (jp.Left = .null ∧ jp.Right ∈ p.Right ∧ p.RightKey.Exists jp.Right = true ∧
        p.RightKey.Value jp.Right ∉ mapKeys (leftByKey p))) := by
  have hro := rightByKey_eq_rightByOwnKey p hk
  constructor
  · intro j k h1 h2
    rw [← hro] at h2
    have hL := (bucketOf_PartitionByKey_ne_nil _ _ k).2 h1
    have hR := (bucketOf_PartitionByKey_ne_nil _ _ k).2 h2
    rw [joinStep_eq]
    simp only [leftByKey, rightByKey, joinBlock, hL, hR]
    simp
  · intro jp hjp
    obtain ⟨k, _, hjk⟩ := mem_PerformJoin order p _ _ _ jp hjp
    rcases mem_joinBlock _ _ _ _ _ jp hjk with h | h | h
    · exact absurd h.1 (by decide)
    · obtain ⟨hm, he, hv⟩ := mem_bucketOf_leftByKey p k _ h.2.1
      refine Or.inl ⟨h.2.2.1, hm, he, fun hc => ?_⟩
      rw [← hro, hv] at hc
      exact (bucketOf_PartitionByKey_ne_nil _ _ k).2 hc h.2.2.2
    · obtain ⟨hm, he, hv⟩ := mem_bucketOf_rightByKey p k _ h.2.2.2
      refine Or.inr ⟨h.2.1, hm, he, fun hc => ?_⟩
      rw [← hk, hv] at hc
      exact (bucketOf_PartitionByKey_ne_nil _ _ k).2 hc h.2.2.1

theorem symmetric_difference_shared_key_witness :
    scenario.LeftKey = scenario.RightKey ∧
    JSON.num 2 ∈ mapKeys (leftByKey scenario) ∧ JSON.num 2 ∈ mapKeys (rightByOwnKey scenario) ∧
    joinStep (leftByKey scenario) (rightByKey scenario) false true true [] (.num 2) = [] ∧
    PerformJoin (firstSeen scenario) scenario false true true =
      [JoinedPair.mk (idRecord 1 "a") .null, JoinedPair.mk .null (idRecord 3 "y")] :=
  ⟨rfl, by decide, by decide,
    (symmetric_difference_shared_key (firstSeen scenario) scenario rfl).1 [] (.num 2)
      (by decide) (by decide),
    by decide⟩

/-! ## Text expressions are the valid UTF-8 Go strings -/

theorem charToNat_valid (c : Char) :
    c.toNat < 0xD800 ∨ (0xDFFF < c.toNat ∧ c.toNat < 0x110000) := c.valid

theorem decodeRunes_encodeRune (n : Nat) (rest : GoString)
    (hn : n < 0xD800 ∨ (0xDFFF < n ∧ n < 0x110000)) :
    decodeRunes (encodeRune n ++ rest) = n :: decodeRunes rest := by
  by_cases h1 : n < 0x80
  · have hb : (byte n).val < 0x80 := by simp only [byte]; omega
    rw [encodeRune, if_pos h1, List.singleton_append, decodeRunes.eq_def]
    simp only [if_pos hb]
    simp only [byte, List.cons.injEq, and_true]
    omega
  · by_cases h2 : n < 0x800
    · have hb0 : ¬ (byte (0xC0 + n / 64)).val < 0x80 := by simp only [byte]; omega
      have hb1 : (byte (0xC0 + n / 64)).val < 0xE0 := by simp only [byte]; omega
      have ha : acceptSecond (byte (0xC0 + n / 64)).val (byte (0x80 + n % 64)).val = true := by
        rw [acceptSecond_iff]; simp only [byte]; omega
      rw [encodeRune, if_neg h1, if_pos h2, decodeRunes.eq_def]
      simp only [List.cons_append, List.nil_append, if_neg hb0, ha, if_pos hb1,
        Bool.true_eq_false, if_false]
      simp only [byte, List.cons.injEq, and_true]
      omega
    · by_cases h3 : n < 0x10000
      · have hb0 : ¬ (byte (0xE0 + n / 4096)).val < 0x80 := by simp only [byte]; omega
        have hb1 : ¬ (byte (0xE0 + n / 4096)).val < 0xE0 := by simp only [byte]; omega
        have hb2 : (byte (0xE0 + n / 4096)).val < 0xF0 := by simp only [byte]; omega
        have ha : acceptSecond (byte (0xE0 + n / 4096)).val
            (byte (0x80 + n / 64 % 64)).val = true := by
          rw [acceptSecond_iff]; simp only [byte]; omega
        have hc : isCont (byte (0x80 + n % 64)).val = true := by
          simp only [isCont, byte, decide_eq_true_eq]; omega
        rw [encodeRune, if_neg h1, if_neg h2, if_neg (by omega), if_pos h3, decodeRunes.eq_def]
        simp only [List.cons_append, List.nil_append, if_neg hb0, ha, if_neg hb1, hc,
          if_pos hb2, Bool.true_eq_false, if_false]
        simp only [byte, List.cons.injEq, and_true]
        omega
      · have hb0 : ¬ (byte (0xF0 + n / 262144)).val < 0x80 := by simp only [byte]; omega
        have hb1 : ¬ (byte (0xF0 + n / 262144)).val < 0xE0 := by simp only [byte]; omega
        have hb2 : ¬ (byte (0xF0 + n / 262144)).val < 0xF0 := by simp only [byte]; omega
        have ha : acceptSecond (byte (0xF0 + n / 262144)).val
            (byte (0x80 + n / 4096 % 64)).val = true := by
          rw [acceptSecond_iff]; simp only [byte]; omega
        have hc : isCont (byte (0x80 + n / 64 % 64)).val = true := by
          simp only [isCont, byte, decide_eq_true_eq]; omega
        have hd : isCont (byte (0x80 + n % 64)).val = true := by
          simp only [isCont, byte, decide_eq_true_eq]; omega
        rw [encodeRune, if_neg h1, if_neg h2, if_neg (by omega), if_neg h3, decodeRunes.eq_def]
        simp only [List.cons_append, List.nil_append, if_neg hb0, ha, if_neg hb1, hc,
          if_neg hb2, hd, Bool.true_eq_false, if_false]
        simp only [byte, List.cons.injEq, and_true]
        omega

theorem decodeRunes_utf8 (cs : List Char) :
    decodeRunes (encodeRunes (cs.map Char.toNat)) = cs.map Char.toNat := by
  induction cs with
  | nil => rfl
  | cons c cs ih =>
    rw [List.map_cons, encodeRunes_cons, decodeRunes_encodeRune _ _ (charToNat_valid c), ih]

theorem charToNat_dot (c : Char) : c.toNat = 0x2E ↔ c = '.' := by
  constructor
  · intro h
    have := Char.ofNat_toNat c
    rw [h] at this
    exact this.symm
  · intro h
    rw [h]
    rfl

theorem encodeRune_dot : encodeRune 0x2E = [0x2E] := by decide

theorem encodeRune_ne_nil (n : Nat) : encodeRune n ≠ [] := by
  unfold encodeRune
  split_ifs <;> simp

theorem encodeRune_no_dot (n : Nat) (h : n ≠ 0x2E) :
    ∀ b ∈ encodeRune n, b ≠ (0x2E : Fin 256) := by
  have hd : ((0x2E : Fin 256)).val = 0x2E := by decide
  intro b hb hc
  rw [hc] at hb
  unfold encodeRune at hb
  split_ifs at hb <;>
    simp only [List.mem_cons, List.mem_singleton, List.not_mem_nil, or_false, byte,
      Fin.ext_iff, hd] at hb <;>
    omega

theorem splitBytes_append_no_sep (sep : Fin 256) (bs rest cur : GoString)
    (h : ∀ b ∈ bs, b ≠ sep) :
    splitBytes sep (bs ++ rest) cur = splitBytes sep rest (bs.reverse ++ cur) := by
  induction bs generalizing cur with
  | nil => rfl
  | cons b bs ih =>
    have hb : b ≠ sep := h b (List.mem_cons_self _ _)
    have hbs : ∀ x ∈ bs, x ≠ sep := fun x hx => h x (List.mem_cons_of_mem _ hx)
    rw [List.cons_append, splitBytes, if_neg hb, ih _ hbs]
    simp

theorem encodeRunes_append (xs ys : List Nat) :
    encodeRunes (xs ++ ys) = encodeRunes xs ++ encodeRunes ys := by
  simp [encodeRunes, List.flatMap_append]

theorem splitBytes_utf8 (cs cur : List Char) :
    splitBytes 0x2E (encodeRunes (cs.map Char.toNat))
        (encodeRunes (cur.reverse.map Char.toNat)).reverse =
      (splitChars '.' cs cur).map utf8 := by
  induction cs generalizing cur with
  | nil => simp [splitBytes, splitChars, utf8, encodeRunes]
  | cons c cs ih =>
    by_cases hc : c = '.'
    · subst hc
      have h0 := ih []
      simp only [List.reverse_nil, List.map_nil] at h0
      have hn : encodeRunes [] = [] := rfl
      rw [hn, List.reverse_nil] at h0
      have hdot : Char.toNat '.' = 0x2E := rfl
      rw [List.map_cons, encodeRunes_cons, hdot, encodeRune_dot, List.singleton_append,
        splitBytes, if_pos rfl, h0]
      simp [splitChars, utf8]
    · have hn : c.toNat ≠ 0x2E := fun h => hc ((charToNat_dot c).1 h)
      rw [List.map_cons, encodeRunes_cons,
        splitBytes_append_no_sep _ _ _ _ (encodeRune_no_dot _ hn)]
      have := ih (c :: cur)
      simp only [List.reverse_cons, List.map_append, List.map_cons, List.map_nil,
        encodeRunes_append, List.reverse_append] at this
      have h1 : encodeRunes [c.toNat] = encodeRune c.toNat := by
        simp [encodeRunes]
      rw [h1] at this
      rw [this]
      simp [splitChars, hc]

theorem encodeRunes_eq_nil (rs : List Nat) (h : encodeRunes rs = []) : rs = [] := by
  cases rs with
  | nil => rfl
  | cons r rs =>
    rw [encodeRunes_cons] at h
    exact absurd (List.append_eq_nil.1 h).1 (encodeRune_ne_nil r)

theorem head_utf8 (c : Char) (cs : List Char) :
    ∃ b bs, utf8 (String.mk (c :: cs)) = b :: bs ∧ (b = 0x2E ↔ c = '.') ∧
      (c = '.' → bs = encodeRunes (cs.map Char.toNat)) := by
  by_cases hc : c = '.'
  · subst hc
    refine ⟨0x2E, encodeRunes (cs.map Char.toNat), ?_, by simp, fun _ => rfl⟩
    have hdot : Char.toNat '.' = 0x2E := rfl
    simp only [utf8, List.map_cons, encodeRunes_cons, hdot, encodeRune_dot,
      List.singleton_append]
  · have hn : c.toNat ≠ 0x2E := fun h => hc ((charToNat_dot c).1 h)
    have hne := encodeRune_ne_nil c.toNat
    cases he : encodeRune c.toNat with
    | nil => exact absurd he hne
    | cons b bs =>
      refine ⟨b, bs ++ encodeRunes (cs.map Char.toNat), ?_, ?_, fun h => absurd h hc⟩
      · simp only [utf8, List.map_cons, encodeRunes_cons, he, List.cons_append]
      · have := encodeRune_no_dot _ hn b (by rw [he]; exact List.mem_cons_self _ _)
        simp [this, hc]

/-- The text model of `KeyFromString` is the Go function on the UTF-8 bytes of the text:
on a key expression that is a text, `KeyFromGoString` returns the bytes of the segments that
`KeyFromString` returns. -/
theorem KeyFromGoString_utf8 (s : String) :
    ∃ k, KeyFromString s = .ok k ∧ KeyFromGoString (utf8 s) = .ok (k.Path.map utf8) := by
  rcases s with ⟨cs⟩
  cases cs with
  | nil => exact ⟨_, rfl, rfl⟩
  | cons c cs =>
    obtain ⟨b, bs, hu, hb, hbs⟩ := head_utf8 c cs
    by_cases hc : c = '.'
    · subst hc
      have hb' : b = 0x2E := hb.2 rfl
      subst hb'
      have hbs' := hbs rfl
      by_cases hcs : cs = []
      · subst hcs
        exact ⟨_, rfl, rfl⟩
      · have hne : (String.mk ('.' :: cs)) ≠ "." := by
          intro h
          apply hcs
          have := congrArg String.data h
          simpa using this
        have hbne : bs ≠ [] := by
          intro h
          rw [h] at hbs'
          exact hcs (List.map_eq_nil_iff.1 (encodeRunes_eq_nil _ hbs'.symm))
        refine ⟨_, KeyFromString_eq_rule _ hne, ?_⟩
        rw [hu, KeyFromGoString_dot bs hbne, hbs', decodeRunes_utf8, ← splitBytes_eq_splitOn]
        have := splitBytes_utf8 cs []
        simp only [List.reverse_nil, List.map_nil] at this
        have hn : encodeRunes [] = [] := rfl
        rw [hn, List.reverse_nil] at this
        rw [this, parseByRule]
        simp only [dropLeadingDot]
        rw [← Split_eq_splitOn (String.mk cs) '.']
        rfl
    · have hne : (String.mk (c :: cs)) ≠ "." := by
        intro h
        have := congrArg String.data h
        simp at this
        exact hc this.1
      have hb' : b ≠ 0x2E := fun h => hc (hb.1 h)
      have hp : ([0x2E] : GoString).isPrefixOf (b :: bs) = false := by
        simp [List.isPrefixOf, Ne.symm hb']
      refine ⟨_, KeyFromString_eq_rule _ hne, ?_⟩
      rw [hu, KeyFromGoString_no_dot _ hp, ← hu, ← splitBytes_eq_splitOn]
      have := splitBytes_utf8 (c :: cs) []
      simp only [List.reverse_nil, List.map_nil] at this
      have hn : encodeRunes [] = [] := rfl
      rw [hn, List.reverse_nil] at this
      rw [utf8, this, parseByRule, dropLeadingDot_cons_ne c cs hc,
        ← Split_eq_splitOn (String.mk (c :: cs)) '.']
      rfl

end Jjoin
